import Mathlib

/-!
# Adaptive limiter `limit` (qiulaidongfeng/limit): shallow embedding and properties

The Go package keeps one shared `atomic.Int64` called `token`.  Request
handlers call `Allow` (a Load / CompareAndSwap retry loop) and `End`
(`Add(1)`); a background goroutine `adjust` recomputes a capacity from the CPU
utilisation and the available memory and overwrites `token` with it.

Conventions of the embedding

* an `int64` is an `Int`; arithmetic that can leave the range goes through
  `wrapInt64` (two's complement wrap-around), as Go's does;
* Go's `int` is taken 64 bits wide (64-bit targets);
* a `float64` that is not NaN or an infinity is the rational number it
  denotes (`ℚ`); comparisons of such values are comparisons of rationals, the
  conversion `float64(uint64)` is `roundF64` (round to nearest, ties to even,
  53-bit significand), and the division by `gb1 = 2^30` is exact;
* loops that the source writes as `for { ... }` take a fuel argument.
-/

namespace GoLimit

/-! ## `atomic.Int64` -/

/-- Smallest `int64`. -/
def minInt64 : Int := -9223372036854775808

/-- Largest `int64` (`math.MaxInt64`). -/
def maxInt64 : Int := 9223372036854775807

/-- Two's-complement wrap-around of an integer into the `int64` range. -/
def wrapInt64 (x : Int) : Int :=
  (x + 9223372036854775808) % 18446744073709551616 - 9223372036854775808

/-- The limiter `type Limit struct { token atomic.Int64 }`. -/
structure Limit where
  /-- Field `token`: the number of requests that may still be admitted. -/
  token : Int
deriving DecidableEq, Repr

namespace Limit

/-- Method `l.token.Load()`. -/
def Load (l : Limit) : Int := l.token

/-- Method `l.token.Store(v)`. -/
def Store (_l : Limit) (v : Int) : Limit := { token := v }

/-- Method `l.token.Add(d)`: `int64` addition, wrapping on overflow. -/
def Add (l : Limit) (d : Int) : Limit := { token := wrapInt64 (l.token + d) }

/-- Method `l.token.CompareAndSwap(old, new)`: the swap happens, and `true` is
returned, exactly when the counter holds `old`. -/
def CompareAndSwap (l : Limit) (old new : Int) : Bool × Limit :=
  if l.token = old then (true, { token := new }) else (false, l)

/-- Method `Allow` (limit.go 57-67) run with no other operation between its
steps.  `fuel` bounds the number of iterations of the `for` loop; `none` means
that the fuel ran out. -/
def Allow : Nat → Limit → Option (Bool × Limit)
  | 0, _ => none
  | fuel + 1, l =>
    let n := l.Load
    if n ≤ 0 then
      some (false, l)
    else
      match l.CompareAndSwap n (n - 1) with
      | (true, l') => some (true, l')
      | (false, l') => Allow fuel l'

/-- Method `End` (limit.go 70-72): `l.token.Add(1)`. -/
def End (l : Limit) : Limit := l.Add 1

end Limit

/-- Runs `k` consecutive calls of `Allow` by one caller, nothing in between;
the results are collected in call order. -/
def Limit.AllowN (fuel : Nat) : Nat → Limit → Option (List Bool × Limit)
  | 0, l => some ([], l)
  | k + 1, l =>
    match l.Allow fuel with
    | none => none
    | some (b, l') =>
      match Limit.AllowN fuel k l' with
      | none => none
      | some (bs, l'') => some (b :: bs, l'')

/-! ## Host parallelism and construction -/

/-- Largest value `runtime.GOMAXPROCS(0)` can return: the runtime keeps the
setting in an `int32`. -/
def maxProcs : Int := 2147483647

/-- Function `mulPerCpu(one)` (limit.go 105-107): `int64(one * runtime.GOMAXPROCS(0))`,
with `procs` the value `runtime.GOMAXPROCS(0)` returns.  The product is an
`int` product and wraps. -/
def mulPerCpu (procs : Int) (one : Int) : Int := wrapInt64 (one * procs)

/-- Function `NewLimit` (limit.go 49-54): the zero `Limit` with `mulPerCpu(300)`
stored in it.  The goroutine it starts is `Limit.adjust` below. -/
def NewLimit (procs : Int) : Limit := (Limit.mk 0).Store (mulPerCpu procs 300)

/-! ## Floating point values used by the sampler -/

/-- Conversion `float64(x)` of a non-negative integer: the nearest value with a
53-bit significand, ties to even. -/
def roundF64 (x : Nat) : Nat :=
  if x < 9007199254740992 then x
  else
    let e := Nat.log2 x - 52
    let q := x / 2 ^ e
    let r := x % 2 ^ e
    let half := 2 ^ (e - 1)
    let q' := if r < half then q else if half < r then q + 1
              else if q % 2 = 0 then q else q + 1
    q' * 2 ^ e

/-- Variable `gb1 = float64(1024 * 1024 * 1024)`. -/
def gb1 : ℚ := 1024 * 1024 * 1024

/-- The `float64` constant written `0.05`. -/
def f64_0_05 : ℚ := 3602879701896397 / 72057594037927936

/-- The `float64` constant written `0.10`. -/
def f64_0_10 : ℚ := 3602879701896397 / 36028797018963968

/-- The `float64` constant written `0.15`. -/
def f64_0_15 : ℚ := 5404319552844595 / 36028797018963968

/-- Function `getCPUUsage` (limit.go 112-123) applied to what
`cpu.Percent(time.Second, false)` returned: an error, or a slice of
percentages. -/
def getCPUUsage (probe : Except String (List ℚ)) : ℚ :=
  match probe with
  | .error _ => 1
  | .ok percent =>
    match percent with
    | [] => 1
    | p :: _ => p

/-- Function `getMemoryAvailable` (limit.go 127-134) applied to what
`mem.VirtualMemory()` returned: an error, or the `uint64` field `Available`.
The constant `math.MaxInt64` is converted to `float64` on return. -/
def getMemoryAvailable (probe : Except String Nat) : ℚ :=
  match probe with
  | .error _ => (roundF64 maxInt64.toNat : ℚ)
  | .ok available => (roundF64 available : ℚ)

/-! ## The sampler `adjust` -/

/-- Local variables of `adjust` that live across iterations. -/
structure Sampler where
  /-- Variable `default_limit`, computed once before the loop. -/
  default_limit : Int
  /-- Variable `next`: the capacity of the previous iteration. -/
  next : Int
deriving DecidableEq, Repr

/-- Lines 76-77 of `adjust`: the state on entry to the loop. -/
def Sampler.init (procs : Int) : Sampler :=
  let default_limit := mulPerCpu procs 300
  { default_limit := default_limit, next := default_limit }

/-- Lines 79-95 of `adjust`: the value of `next2` at the `Store`, from the
loop-invariant `default_limit`, the parallelism `procs` read by this iteration's
`mulPerCpu` calls, and the values `tmp` and `ava` the two probes returned. -/
def next2 (default_limit : Int) (procs : Int) (tmp ava : ℚ) : Int :=
  let n0 := default_limit
  let n1 :=
    if tmp > 85 then mulPerCpu procs 10
    else if tmp > 75 then mulPerCpu procs 32
    else if tmp > 65 then mulPerCpu procs 64
    else n0
  if ava / gb1 < f64_0_05 then min n1 (mulPerCpu procs 10)
  else if ava / gb1 < f64_0_10 then min n1 (mulPerCpu procs 32)
  else if ava / gb1 < f64_0_15 then min n1 (mulPerCpu procs 64)
  else n1

/-- What one iteration of the loop of `adjust` reads from its environment. -/
structure Tick where
  /-- Value of `runtime.GOMAXPROCS(0)` during the iteration. -/
  procs : Int
  /-- Result of `cpu.Percent(time.Second, false)`. -/
  cpu : Except String (List ℚ)
  /-- Result of `mem.VirtualMemory()`: the field `Available`. -/
  mem : Except String Nat

/-- One iteration of the loop of `adjust` (limit.go 79-100): the counter after
`l.token.Store(next2)`, the sampler variables after `next = next2`, and the
pair `(next, next2)` handed to `slog.Info` when the two differ. -/
def Limit.adjustBody (l : Limit) (st : Sampler) (t : Tick) :
    Limit × Sampler × Option (Int × Int) :=
  let n2 := next2 st.default_limit t.procs (getCPUUsage t.cpu) (getMemoryAvailable t.mem)
  let l' := l.Store n2
  let log := if st.next ≠ n2 then some (st.next, n2) else none
  (l', { st with next := n2 }, log)

/-- Method `adjust` (limit.go 75-102) run for the iterations listed in `ticks`,
with `procs0` the parallelism read on line 76: the counter and sampler
variables after the last iteration and the log events in order. -/
def Limit.adjust (l : Limit) (procs0 : Int) (ticks : List Tick) :
    Limit × Sampler × List (Int × Int) :=
  ticks.foldl
    (fun acc t =>
      let r := Limit.adjustBody acc.1 acc.2.1 t
      (r.1, r.2.1, acc.2.2 ++ r.2.2.toList))
    (l, Sampler.init procs0, [])

/-- The capacity one iteration publishes when the parallelism is `procs`
throughout: the counter after `adjustBody`. -/
def published (procs : Int) (cpu : Except String (List ℚ)) (mem : Except String Nat) : Int :=
  ((Limit.mk 0).adjustBody (Sampler.init procs) { procs := procs, cpu := cpu, mem := mem }).1.token

/-! ## The policy in the words of the specification -/

/-- Spec, policy table: the CPU candidate capacity for utilisation `u`. -/
def specCpuCandidate (procs : Int) (u : ℚ) : Int :=
  if u > 85 then 10 * procs
  else if u > 75 then 32 * procs
  else if u > 65 then 64 * procs
  else 300 * procs

/-- Spec, policy table: the memory candidate capacity for `a` available bytes,
the cutoffs being 0.05, 0.10 and 0.15 of 1 GiB. -/
def specMemCandidate (procs : Int) (a : Nat) : Int :=
  if (a : ℚ) < 5 / 100 * 2 ^ 30 then 10 * procs
  else if (a : ℚ) < 10 / 100 * 2 ^ 30 then 32 * procs
  else if (a : ℚ) < 15 / 100 * 2 ^ 30 then 64 * procs
  else 300 * procs

/-- Spec, step 4: `min(default, cpu_candidate, memory_candidate)`. -/
def specCapacity (procs : Int) (u : ℚ) (a : Nat) : Int :=
  min (300 * procs) (min (specCpuCandidate procs u) (specMemCandidate procs a))

/-! ## Concurrent callers of `Allow` -/

/-- Control state of one goroutine inside `Allow`. -/
inductive Pc where
  /-- About to execute `n := l.token.Load()` (line 59). -/
  | start
  /-- Holds the loaded value `n`, found positive on line 60, and is about to
  execute `l.token.CompareAndSwap(n, n-1)` (line 63). -/
  | loaded (n : Int)
  /-- Has returned `b`. -/
  | done (b : Bool)
deriving DecidableEq, Repr

/-- One atomic step of a goroutine inside `Allow`: the `Load` with the test of
line 60, or the `CompareAndSwap` with the branch of line 63. -/
def Pc.step (l : Limit) : Pc → Limit × Pc
  | .start =>
    let n := l.Load
    if n ≤ 0 then (l, .done false) else (l, .loaded n)
  | .loaded n =>
    match l.CompareAndSwap n (n - 1) with
    | (true, l') => (l', .done true)
    | (false, l') => (l', .start)
  | .done b => (l, .done b)

/-- Shared counter and the control states of the goroutines calling `Allow`. -/
structure Conc where
  /-- The shared limiter. -/
  lim : Limit
  /-- One control state per goroutine. -/
  pcs : List Pc
deriving DecidableEq, Repr

/-- Initial state: the counter holds `k` and `n` goroutines are about to
call `Allow`. -/
def Conc.init (k : Int) (n : Nat) : Conc :=
  { lim := { token := k }, pcs := List.replicate n Pc.start }

/-- The scheduler lets goroutine `i` take its next atomic step; `none` when
there is no such goroutine or it has already returned. -/
def Conc.step (s : Conc) (i : Nat) : Option Conc :=
  match s.pcs[i]? with
  | none => none
  | some (.done _) => none
  | some pc => some { lim := (pc.step s.lim).1, pcs := s.pcs.set i (pc.step s.lim).2 }

/-- Runs a schedule: the list of goroutine indices in the order in which they
take their steps. -/
def Conc.run (s : Conc) : List Nat → Option Conc
  | [] => some s
  | i :: sched =>
    match s.step i with
    | none => none
    | some s' => Conc.run s' sched

/-- Whether the goroutine has returned. -/
def Pc.isDone : Pc → Bool
  | .done _ => true
  | _ => false

/-- Every goroutine has returned. -/
def Conc.final (s : Conc) : Bool := s.pcs.all Pc.isDone

/-- Whether the value a goroutine holds between its `Load` and its
`CompareAndSwap`, if it holds one, is positive. -/
def Pc.loadedPos : Pc → Bool
  | .loaded n => decide (0 < n)
  | _ => true

/-- Number of goroutines that have returned `b`. -/
def Conc.returned (s : Conc) (b : Bool) : Nat := s.pcs.count (Pc.done b)

/-- Potential of one goroutine for the termination argument: each of its
steps lowers it, and a decrement of the counter by another goroutine does not
raise it. -/
def Pc.pot (tok : Int) : Pc → Nat
  | .start => 3 * tok.toNat + 1
  | .loaded n => if n = tok ∧ 0 < n then 3 * tok.toNat else 3 * tok.toNat + 2
  | .done _ => 0

/-- Sum of the potentials of all goroutines. -/
def Conc.pot (s : Conc) : Nat := (s.pcs.map (Pc.pot s.lim.token)).sum

/-- Invariant of the concurrent runs that start with `k` in the counter and `n`
goroutines: the counter is not negative, the counter and the grants add up to
`k`, a loaded value is positive, and once a goroutine has been refused the
counter is zero. -/
def Conc.Inv (k : Int) (n : Nat) (s : Conc) : Prop :=
  0 ≤ s.lim.token ∧
  s.lim.token + (s.returned true : Int) = k ∧
  s.pcs.all Pc.loadedPos = true ∧
  (Pc.done false ∈ s.pcs → s.lim.token = 0) ∧
  s.pcs.length = n

/-- The invariant can be checked on a given state. -/
instance Conc.decidableInv (k : Int) (n : Nat) (s : Conc) : Decidable (Conc.Inv k n s) := by
  unfold Conc.Inv
  infer_instance

/-! ## Request handlers and sampler together -/

/-- The limiter, the sampler variables, and the number of requests in flight:
calls of `Allow` that returned `true` minus calls of `End`. -/
structure Sys where
  /-- The shared limiter. -/
  lim : Limit
  /-- Variables of the `adjust` goroutine. -/
  sampler : Sampler
  /-- Requests admitted and not yet ended. -/
  inflight : Nat
deriving DecidableEq, Repr

/-- An operation on the limiter, each atomic with respect to the others. -/
inductive Event where
  /-- A handler calls `Allow`. -/
  | allow
  /-- A handler calls `End` for a request whose `Allow` returned `true`. -/
  | finish
  /-- The sampler completes one iteration of `adjust`. -/
  | tick (t : Tick)

/-- State right after `NewLimit`, the sampler having executed lines 76-77. -/
def Sys.init (procs : Int) : Sys :=
  { lim := NewLimit procs, sampler := Sampler.init procs, inflight := 0 }

/-- Executes one operation.  `none` for an `End` that matches no admitted
request, or when `Allow` runs out of fuel. -/
def Sys.exec (fuel : Nat) (s : Sys) : Event → Option Sys
  | .allow =>
    match s.lim.Allow fuel with
    | none => none
    | some (true, l') => some { s with lim := l', inflight := s.inflight + 1 }
    | some (false, l') => some { s with lim := l' }
  | .finish =>
    if s.inflight = 0 then none
    else some { s with lim := s.lim.End, inflight := s.inflight - 1 }
  | .tick t =>
    let r := s.lim.adjustBody s.sampler t
    some { s with lim := r.1, sampler := r.2.1 }

/-- Executes a list of operations in order. -/
def Sys.run (fuel : Nat) (s : Sys) : List Event → Option Sys
  | [] => some s
  | e :: es =>
    match s.exec fuel e with
    | none => none
    | some s' => Sys.run fuel s' es

/-- Whether the operation is an iteration of the sampler. -/
def Event.isTick : Event → Bool
  | .tick _ => true
  | _ => false

/-- Whether the parallelism an iteration reads is a value that
`runtime.GOMAXPROCS(0)` can return. -/
def Tick.inRange (t : Tick) : Bool := decide (1 ≤ t.procs) && decide (t.procs ≤ maxProcs)

/-- Whether an operation reads only values its environment can supply: the
parallelism of a sampler iteration is within range. -/
def Event.inRange : Event → Bool
  | .tick t => t.inRange
  | _ => true

/-- Whether a handler may issue the operation in state `s`: an `End` needs a
request in flight, the other operations are always possible. -/
def Event.enabled (s : Sys) : Event → Bool
  | .finish => decide (0 < s.inflight)
  | _ => true

/-- Largest capacity the sampler can publish: `300 * maxProcs`. -/
def maxCapacity : Int := 644245094100

/-- Bound on the counter after `k` operations: it is not negative and at most
`maxCapacity + k`, and the sampler's `default_limit` is a positive capacity. -/
def Sys.Bounded (k : Nat) (s : Sys) : Prop :=
  0 ≤ s.lim.token ∧ s.lim.token ≤ maxCapacity + (k : Int) ∧
  0 < s.sampler.default_limit ∧ s.sampler.default_limit ≤ maxCapacity

/-- The bound can be checked on a given state. -/
instance Sys.decidableBounded (k : Nat) (s : Sys) : Decidable (Sys.Bounded k s) := by
  unfold Sys.Bounded
  infer_instance

/-- The capacity one iteration publishes when the sampler started with
parallelism `procs0` and the iteration reads parallelism `procs`. -/
def publishedAt (procs0 procs : Int) (cpu : Except String (List ℚ))
    (mem : Except String Nat) : Int :=
  ((Limit.mk 0).adjustBody (Sampler.init procs0)
    { procs := procs, cpu := cpu, mem := mem }).1.token

/-- The CPU step of an iteration in closed form: the multiplier of the band
the utilisation `u` falls in, scaled by the parallelism `procs` the iteration
reads, or `300 * procs0`, with `procs0` read when the sampler started, when no
band applies. -/
def cpuTerm (procs0 procs : Int) (u : ℚ) : Int :=
  if u > 85 then 10 * procs
  else if u > 75 then 32 * procs
  else if u > 65 then 64 * procs
  else 300 * procs0

/-- The memory step of an iteration in closed form: the minimum of the CPU
step's value `c` and the multiplier of the band the `a` available bytes fall
in, scaled by the parallelism `procs` the iteration reads, or `c` itself when no
band applies. -/
def memTerm (procs : Int) (c : Int) (a : Nat) : Int :=
  if a ≤ 53687091 then min c (10 * procs)
  else if a ≤ 107374182 then min c (32 * procs)
  else if a ≤ 161061273 then min c (64 * procs)
  else c

/-- Whether a sampler iteration, if the operation is one, reads the
parallelism `procs`. -/
def Event.readsProcs (procs : Int) : Event → Bool
  | .tick t => decide (t.procs = procs)
  | _ => true

/-- Number of sampler iterations, that is of publications, in a list of
operations. -/
def countTicks : List Event → Nat
  | [] => 0
  | e :: es => (if e.isTick then 1 else 0) + countTicks es

/-- Spec, policy table, with the multipliers of the CPU bands scaled by the
parallelism `procs` of the tick and the default scaled by the parallelism
`procs0` read when the sampler started. -/
def specCpuCandidateAt (procs0 procs : Int) (u : ℚ) : Int :=
  if u > 85 then 10 * procs
  else if u > 75 then 32 * procs
  else if u > 65 then 64 * procs
  else 300 * procs0

/-- Spec, policy table, with the multipliers of the memory bands scaled by the
parallelism `procs` of the tick and the default scaled by the parallelism
`procs0` read when the sampler started. -/
def specMemCandidateAt (procs0 procs : Int) (a : Nat) : Int :=
  if (a : ℚ) < 5 / 100 * 2 ^ 30 then 10 * procs
  else if (a : ℚ) < 10 / 100 * 2 ^ 30 then 32 * procs
  else if (a : ℚ) < 15 / 100 * 2 ^ 30 then 64 * procs
  else 300 * procs0

/-- Spec, step 4, with the default scaled by `procs0` and the candidates'
multipliers by `procs`: `min(default, cpu_candidate, memory_candidate)`. -/
def specCapacityAt (procs0 procs : Int) (u : ℚ) (a : Nat) : Int :=
  min (300 * procs0) (min (specCpuCandidateAt procs0 procs u) (specMemCandidateAt procs0 procs a))

/-! ## Theorems -/

/-- The compare-and-swap of the value just loaded succeeds when nothing ran in
between. -/
theorem Limit.compareAndSwap_self (l : Limit) (v : Int) :
    l.CompareAndSwap l.token v = (true, { token := v }) := by
  simp [Limit.CompareAndSwap]

/-- With at least one unit of fuel a sequential `Allow` returns, and its result
is determined by the sign of the counter. -/
theorem Limit.Allow_succ (fuel : Nat) (l : Limit) :
    Limit.Allow (fuel + 1) l =
      some (if 0 < l.token then (true, { token := l.token - 1 }) else (false, l)) := by
  by_cases h : 0 < l.token
  · have h' : ¬ l.token ≤ 0 := by omega
    simp [Limit.Allow, Limit.Load, Limit.CompareAndSwap, h, h']
  · have h' : l.token ≤ 0 := by omega
    simp [Limit.Allow, Limit.Load, h, h']

/-- C1: for every counter value `n`, a call of `Allow` with no interfering
operation returns (any positive fuel suffices); it returns `true` if and only if
`n > 0`; when it returns `true` the counter becomes `n - 1`, and when it returns
`false` the counter is still `n`. -/
theorem C1_allow_sequential (n : Int) (fuel : Nat) :
    ∃ (b : Bool) (l' : Limit),
      Limit.Allow (fuel + 1) { token := n } = some (b, l') ∧
      (b = true ↔ 0 < n) ∧
      (b = true → l'.token = n - 1) ∧
      (b = false → l'.token = n ∧ n ≤ 0) := by
  by_cases h : 0 < n
  · refine ⟨true, { token := n - 1 }, ?_, ?_, ?_, ?_⟩
    · rw [Limit.Allow_succ]; simp [h]
    · simp [h]
    · intro _; rfl
    · intro hb; cases hb
  · refine ⟨false, { token := n }, ?_, ?_, ?_, ?_⟩
    · rw [Limit.Allow_succ]; simp [h]
    · simp [h]
    · intro hb; cases hb
    · intro _; exact ⟨rfl, by omega⟩

/-! ### Sequences of `Allow` -/

/-- Inside the `int64` range `wrapInt64` is the identity. -/
theorem wrapInt64_of_mem (x : Int) (h₁ : minInt64 ≤ x) (h₂ : x ≤ maxInt64) :
    wrapInt64 x = x := by
  unfold minInt64 at h₁
  unfold maxInt64 at h₂
  unfold wrapInt64
  omega

/-- For a parallelism in the range of `runtime.GOMAXPROCS` and a multiplier of
the policy table, the product in `mulPerCpu` does not overflow. -/
theorem mulPerCpu_eq (procs one : Int) (h₁ : 1 ≤ procs) (h₂ : procs ≤ maxProcs)
    (h₃ : 0 ≤ one) (h₄ : one ≤ 300) : mulPerCpu procs one = one * procs := by
  unfold maxProcs at h₂
  have hlo : 0 ≤ one * procs := Int.mul_nonneg h₃ (by omega)
  have hhi : one * procs ≤ 300 * 2147483647 :=
    Int.mul_le_mul h₄ h₂ (by omega) (by omega)
  apply wrapInt64_of_mem
  · unfold minInt64; omega
  · unfold maxInt64; omega

/-- From a counter holding `c ≥ 0`, `k` consecutive calls of `Allow` return
`true` for the first `min k c` of them and `false` afterwards, and leave
`c - min k c` in the counter. -/
theorem Limit.AllowN_eq (fuel : Nat) (k c : Nat) :
    Limit.AllowN (fuel + 1) k { token := (c : Int) } =
      some (List.replicate (min k c) true ++ List.replicate (k - c) false,
            { token := (c : Int) - (min k c : Nat) }) := by
  induction k generalizing c with
  | zero => simp [Limit.AllowN]
  | succ k ih =>
    cases c with
    | zero =>
      have := ih 0
      simp only [Nat.cast_zero, Nat.min_zero, Nat.sub_zero, List.replicate_zero,
        List.nil_append, Int.sub_zero] at this
      simp [Limit.AllowN, Limit.Allow_succ, this, List.replicate_succ]
    | succ c =>
      have h := ih c
      have hpos : (0 : Int) < ((c + 1 : Nat) : Int) := by omega
      have hsub : ((c + 1 : Nat) : Int) - 1 = (c : Int) := by omega
      simp only [Limit.AllowN, Limit.Allow_succ, hpos, if_true, hsub, h]
      simp only [Nat.succ_min_succ, List.replicate_succ, List.cons_append, Nat.succ_sub_succ]
      congr 2
      simp only [Limit.mk.injEq]
      omega

/-- C2: from a counter holding `c ≥ 0`, in a run of `k` consecutive `Allow`
calls (no `End`, no publication) exactly the first `c` calls return `true` and
call `c + 1` and all later ones return `false`; and right after `NewLimit`
the counter holds `c = 300 * P`, so this applies with that capacity. -/
theorem C2_allow_exhausts_capacity (P : Int) (hP : 1 ≤ P) (hP' : P ≤ maxProcs)
    (fuel k : Nat) :
    (∀ c : Nat, ∃ l', Limit.AllowN (fuel + 1) k { token := (c : Int) } =
        some (List.replicate (min k c) true ++ List.replicate (k - c) false, l')) ∧
    (NewLimit P).token = 300 * P ∧
    (∃ l', Limit.AllowN (fuel + 1) k (NewLimit P) =
        some (List.replicate (min k (300 * P).toNat) true ++
              List.replicate (k - (300 * P).toNat) false, l')) := by
  have htok : (NewLimit P).token = 300 * P := by
    simp [NewLimit, Limit.Store, mulPerCpu_eq P 300 hP hP' (by omega) (by omega)]
  refine ⟨fun c => ⟨_, Limit.AllowN_eq fuel k c⟩, htok, ?_⟩
  have hnew : NewLimit P = { token := ((300 * P).toNat : Int) } := by
    have : ((300 * P).toNat : Int) = 300 * P := Int.toNat_of_nonneg (by omega)
    rw [this, ← htok]
  rw [hnew]
  exact ⟨_, Limit.AllowN_eq fuel k _⟩

/-- Witness for C2 with one processor: 302 calls after `NewLimit`. -/
theorem C2_allow_exhausts_capacity_witness :
    (1 : Int) ≤ 1 ∧ (1 : Int) ≤ maxProcs ∧
    (NewLimit 1).token = 300 * 1 ∧
    (∃ l', Limit.AllowN (0 + 1) 302 (NewLimit 1) =
        some (List.replicate (min 302 (300 * (1 : Int)).toNat) true ++
              List.replicate (302 - (300 * (1 : Int)).toNat) false, l')) :=
  ⟨by decide, by decide,
    (C2_allow_exhausts_capacity 1 (by decide) (by decide) 0 302).2.1,
    (C2_allow_exhausts_capacity 1 (by decide) (by decide) 0 302).2.2⟩

/-! ### Concurrent callers -/

/-- The sequential `Allow` is the run of a single goroutine: scheduled alone,
it returns after its `Load` when the counter is not positive and after its
`CompareAndSwap` otherwise, with the result and the counter of `Limit.Allow`. -/
theorem Conc.run_single (l : Limit) :
    ∃ (b : Bool) (l' : Limit), Limit.Allow 1 l = some (b, l') ∧
      Conc.run { lim := l, pcs := [Pc.start] } (if 0 < l.token then [0, 0] else [0]) =
        some { lim := l', pcs := [Pc.done b] } := by
  by_cases h : 0 < l.token
  · have h' : ¬ l.token ≤ 0 := by omega
    refine ⟨true, { token := l.token - 1 }, ?_, ?_⟩
    · rw [Limit.Allow_succ]; simp [h]
    · simp [h, h', Conc.run, Conc.step, Pc.step, Limit.Load, Limit.CompareAndSwap]
  · have h' : l.token ≤ 0 := by omega
    refine ⟨false, l, ?_, ?_⟩
    · rw [Limit.Allow_succ]; simp [h]
    · simp [h, h', Conc.run, Conc.step, Pc.step, Limit.Load]

/-- Replacing entry `i` of a list changes a sum over the list by the change of
that entry. -/
theorem sum_map_set (f : Pc → Nat) :
    ∀ (pcs : List Pc) (i : Nat) (pc pc' : Pc), pcs[i]? = some pc →
      ((pcs.set i pc').map f).sum + f pc = (pcs.map f).sum + f pc'
  | [], i, pc, pc', h => by simp at h
  | x :: xs, 0, pc, pc', h => by
    simp at h
    subst h
    simp [List.set]
    omega
  | x :: xs, i + 1, pc, pc', h => by
    simp at h
    have := sum_map_set f xs i pc pc' h
    simp only [List.set, List.map_cons, List.sum_cons]
    omega

/-- Counting an element is summing its indicator. -/
theorem count_eq_sum (a : Pc) (pcs : List Pc) :
    pcs.count a = (pcs.map (fun x => if x = a then 1 else 0)).sum := by
  induction pcs with
  | nil => simp
  | cons x xs ih =>
    by_cases h : x = a
    · simp [List.count_cons, h, ih]; omega
    · simp [List.count_cons, h, ih]

/-- Replacing entry `i` changes a count by the change of that entry. -/
theorem count_set (a : Pc) (pcs : List Pc) (i : Nat) (pc pc' : Pc)
    (h : pcs[i]? = some pc) :
    (pcs.set i pc').count a + (if pc = a then 1 else 0) =
      pcs.count a + (if pc' = a then 1 else 0) := by
  rw [count_eq_sum, count_eq_sum]
  exact sum_map_set (fun x => if x = a then 1 else 0) pcs i pc pc' h

/-- An entry of the list is a member of it. -/
theorem mem_of_getElem? {pcs : List Pc} {i : Nat} {pc : Pc} (h : pcs[i]? = some pc) :
    pc ∈ pcs := by
  rw [List.mem_iff_getElem?]
  exact ⟨i, h⟩

/-- When all goroutines have returned, those that returned `true` and those that
returned `false` are all of them. -/
theorem count_done_add (pcs : List Pc) (h : ∀ pc ∈ pcs, ∃ b, pc = Pc.done b) :
    pcs.count (Pc.done true) + pcs.count (Pc.done false) = pcs.length := by
  induction pcs with
  | nil => simp
  | cons x xs ih =>
    have hx := h x (List.mem_cons_self x xs)
    have hxs := ih (fun pc hpc => h pc (List.mem_cons_of_mem x hpc))
    obtain ⟨b, rfl⟩ := hx
    cases b <;> simp [List.count_cons] <;> omega

/-- Lowering the counter by one raises no goroutine's potential. -/
theorem Pc.pot_pred_le (tok : Int) (pc : Pc) : Pc.pot (tok - 1) pc ≤ Pc.pot tok pc := by
  have h : (tok - 1).toNat ≤ tok.toNat := by omega
  cases pc with
  | start => simp only [Pc.pot]; omega
  | loaded n =>
    simp only [Pc.pot]
    split_ifs with h₁ h₂ h₂
    · omega
    · omega
    · have : (tok - 1).toNat + 1 = tok.toNat := by omega
      omega
    · omega
  | done b => simp [Pc.pot]

/-- The sum version of `Pc.pot_pred_le`. -/
theorem sum_pot_pred_le (tok : Int) (pcs : List Pc) :
    (pcs.map (Pc.pot (tok - 1))).sum ≤ (pcs.map (Pc.pot tok)).sum := by
  induction pcs with
  | nil => simp
  | cons x xs ih =>
    have := Pc.pot_pred_le tok x
    simp only [List.map_cons, List.sum_cons]
    omega

/-- What a step of goroutine `i` is, by the control state it is in. -/
theorem Conc.step_cases {s s' : Conc} {i : Nat} (h : s.step i = some s') :
    (s.pcs[i]? = some Pc.start ∧ s.lim.token ≤ 0 ∧
        s' = { lim := s.lim, pcs := s.pcs.set i (Pc.done false) }) ∨
    (s.pcs[i]? = some Pc.start ∧ 0 < s.lim.token ∧
        s' = { lim := s.lim, pcs := s.pcs.set i (Pc.loaded s.lim.token) }) ∨
    (s.pcs[i]? = some (Pc.loaded s.lim.token) ∧
        s' = { lim := { token := s.lim.token - 1 }, pcs := s.pcs.set i (Pc.done true) }) ∨
    (∃ n, s.pcs[i]? = some (Pc.loaded n) ∧ s.lim.token ≠ n ∧
        s' = { lim := s.lim, pcs := s.pcs.set i Pc.start }) := by
  unfold Conc.step at h
  cases hpc : s.pcs[i]? with
  | none => simp [hpc] at h
  | some pc =>
    cases pc with
    | done b => simp [hpc] at h
    | start =>
      simp only [hpc, Option.some.injEq] at h
      by_cases ht : s.lim.token ≤ 0
      · left
        refine ⟨rfl, ht, ?_⟩
        rw [← h]
        simp [Pc.step, Limit.Load, ht]
      · right; left
        refine ⟨rfl, by omega, ?_⟩
        rw [← h]
        simp [Pc.step, Limit.Load, ht]
    | loaded n =>
      simp only [hpc, Option.some.injEq] at h
      by_cases ht : s.lim.token = n
      · right; right; left
        subst ht
        refine ⟨rfl, ?_⟩
        rw [← h]
        simp [Pc.step, Limit.CompareAndSwap]
      · right; right; right
        refine ⟨n, rfl, ht, ?_⟩
        rw [← h]
        simp [Pc.step, Limit.CompareAndSwap, ht]

/-- Every step lowers the total potential. -/
theorem Conc.step_pot {s s' : Conc} {i : Nat} (h : s.step i = some s') :
    s'.pot + 1 ≤ s.pot := by
  rcases Conc.step_cases h with ⟨hpc, ht, rfl⟩ | ⟨hpc, ht, rfl⟩ | ⟨hpc, rfl⟩ | ⟨n, hpc, ht, rfl⟩
  · have := sum_map_set (Pc.pot s.lim.token) s.pcs i Pc.start (Pc.done false) hpc
    simp only [Conc.pot, Pc.pot] at this ⊢
    omega
  · have := sum_map_set (Pc.pot s.lim.token) s.pcs i Pc.start (Pc.loaded s.lim.token) hpc
    simp only [Conc.pot, Pc.pot, ht, and_self, if_true] at this ⊢
    omega
  · have h₁ := sum_map_set (Pc.pot (s.lim.token - 1)) s.pcs i (Pc.loaded s.lim.token)
      (Pc.done true) hpc
    have h₂ := sum_pot_pred_le s.lim.token s.pcs
    have h₃ : Pc.pot (s.lim.token - 1) (Pc.loaded s.lim.token) =
        3 * (s.lim.token - 1).toNat + 2 := by
      have : ¬ (s.lim.token = s.lim.token - 1) := by omega
      simp [Pc.pot, this]
    simp only [Conc.pot, Pc.pot] at h₁ h₂ h₃ ⊢
    omega
  · have := sum_map_set (Pc.pot s.lim.token) s.pcs i (Pc.loaded n) Pc.start hpc
    have hne : ¬ (n = s.lim.token) := fun e => ht e.symm
    simp only [Conc.pot, Pc.pot, hne, false_and, if_false] at this ⊢
    omega

/-- A schedule is no longer than the potential it uses up. -/
theorem Conc.run_pot : ∀ (sched : List Nat) (s s' : Conc),
    s.run sched = some s' → sched.length + s'.pot ≤ s.pot
  | [], s, s', h => by
    simp only [Conc.run, Option.some.injEq] at h
    subst h
    simp
  | i :: sched, s, s', h => by
    simp only [Conc.run] at h
    cases hstep : s.step i with
    | none => simp [hstep] at h
    | some s₁ =>
      simp only [hstep] at h
      have h₁ := Conc.step_pot hstep
      have h₂ := Conc.run_pot sched s₁ s' h
      simp only [List.length_cons]
      omega

/-- A state is final when every control state is a `done`. -/
theorem Conc.final_iff (s : Conc) :
    s.final = true ↔ ∀ pc ∈ s.pcs, ∃ b, pc = Pc.done b := by
  simp only [Conc.final, List.all_eq_true]
  constructor
  · intro h pc hpc
    have := h pc hpc
    cases pc with
    | done b => exact ⟨b, rfl⟩
    | start => simp [Pc.isDone] at this
    | loaded n => simp [Pc.isDone] at this
  · intro h pc hpc
    obtain ⟨b, rfl⟩ := h pc hpc
    rfl

/-- The loaded values are positive when each `loaded m` in the list has `0 < m`. -/
theorem loadedPos_iff (pcs : List Pc) :
    pcs.all Pc.loadedPos = true ↔ ∀ m, Pc.loaded m ∈ pcs → 0 < m := by
  simp only [List.all_eq_true]
  constructor
  · intro h m hm
    simpa [Pc.loadedPos] using h _ hm
  · intro h pc hpc
    cases pc with
    | done b => rfl
    | start => rfl
    | loaded n => simpa [Pc.loadedPos] using h n hpc

/-- Potential of the initial state. -/
theorem Conc.init_pot (k : Int) (n : Nat) : (Conc.init k n).pot = n * (3 * k.toNat + 1) := by
  simp [Conc.init, Conc.pot, Pc.pot]

/-- The initial state satisfies the invariant. -/
theorem Conc.inv_init (k : Int) (hk : 0 ≤ k) (n : Nat) : Conc.Inv k n (Conc.init k n) := by
  refine ⟨hk, ?_, ?_, ?_, ?_⟩
  · simp [Conc.init, Conc.returned, List.count_replicate]
  · rw [loadedPos_iff]
    intro m hm
    simp [Conc.init, List.mem_replicate] at hm
  · intro hm
    simp [Conc.init, List.mem_replicate] at hm
  · simp [Conc.init]

/-- Every step preserves the invariant. -/
theorem Conc.inv_step {k : Int} {n : Nat} {s s' : Conc} {i : Nat}
    (hinv : Conc.Inv k n s) (h : s.step i = some s') : Conc.Inv k n s' := by
  obtain ⟨h0, hsum, hld, hdf, hlen⟩ := hinv
  rw [loadedPos_iff] at hld
  rcases Conc.step_cases h with ⟨hpc, ht, rfl⟩ | ⟨hpc, ht, rfl⟩ | ⟨hpc, rfl⟩ | ⟨m, hpc, ht, rfl⟩
  · have hc := count_set (Pc.done true) s.pcs i Pc.start (Pc.done false) hpc
    simp at hc
    refine ⟨h0, ?_, ?_, ?_, ?_⟩
    · simp only [Conc.returned] at hsum ⊢
      rw [hc]; exact hsum
    · rw [loadedPos_iff]
      intro m hm
      rcases List.mem_or_eq_of_mem_set hm with hm | hm
      · exact hld m hm
      · cases hm
    · intro _
      show s.lim.token = 0
      omega
    · simpa using hlen
  · have hc := count_set (Pc.done true) s.pcs i Pc.start (Pc.loaded s.lim.token) hpc
    simp at hc
    refine ⟨h0, ?_, ?_, ?_, ?_⟩
    · simp only [Conc.returned] at hsum ⊢
      rw [hc]; exact hsum
    · rw [loadedPos_iff]
      intro m hm
      rcases List.mem_or_eq_of_mem_set hm with hm | hm
      · exact hld m hm
      · cases hm; exact ht
    · intro hm
      rcases List.mem_or_eq_of_mem_set hm with hm | hm
      · exact hdf hm
      · cases hm
    · simpa using hlen
  · have hc := count_set (Pc.done true) s.pcs i (Pc.loaded s.lim.token) (Pc.done true) hpc
    simp at hc
    have hpos : 0 < s.lim.token := hld _ (mem_of_getElem? hpc)
    refine ⟨?_, ?_, ?_, ?_, ?_⟩
    · show 0 ≤ s.lim.token - 1
      omega
    · simp only [Conc.returned] at hsum ⊢
      rw [hc]
      push_cast
      omega
    · rw [loadedPos_iff]
      intro m hm
      rcases List.mem_or_eq_of_mem_set hm with hm | hm
      · exact hld m hm
      · cases hm
    · intro hm
      rcases List.mem_or_eq_of_mem_set hm with hm | hm
      · have := hdf hm
        omega
      · cases hm
    · simpa using hlen
  · have hc := count_set (Pc.done true) s.pcs i (Pc.loaded m) Pc.start hpc
    simp at hc
    refine ⟨h0, ?_, ?_, ?_, ?_⟩
    · simp only [Conc.returned] at hsum ⊢
      rw [hc]; exact hsum
    · rw [loadedPos_iff]
      intro m' hm
      rcases List.mem_or_eq_of_mem_set hm with hm | hm
      · exact hld m' hm
      · cases hm
    · intro hm
      rcases List.mem_or_eq_of_mem_set hm with hm | hm
      · exact hdf hm
      · cases hm
    · simpa using hlen

/-- Every state a schedule reaches satisfies the invariant. -/
theorem Conc.inv_run {k : Int} {n : Nat} : ∀ (sched : List Nat) (s s' : Conc),
    Conc.Inv k n s → s.run sched = some s' → Conc.Inv k n s'
  | [], s, s', hinv, h => by
    simp only [Conc.run, Option.some.injEq] at h
    subst h
    exact hinv
  | i :: sched, s, s', hinv, h => by
    simp only [Conc.run] at h
    cases hstep : s.step i with
    | none => simp [hstep] at h
    | some s₁ =>
      simp only [hstep] at h
      exact Conc.inv_run sched s₁ s' (Conc.inv_step hinv hstep) h

/-- In a state that is not final some goroutine can take a step. -/
theorem Conc.progress (s : Conc) (h : ¬ s.final) : ∃ i s', s.step i = some s' := by
  rw [Conc.final_iff] at h
  push_neg at h
  obtain ⟨pc, hmem, hnd⟩ := h
  obtain ⟨i, hi⟩ := List.mem_iff_getElem?.mp hmem
  cases pc with
  | done b => exact absurd rfl (hnd b)
  | start =>
    exact ⟨i, { lim := (Pc.start.step s.lim).1, pcs := s.pcs.set i (Pc.start.step s.lim).2 },
      by simp [Conc.step, hi]⟩
  | loaded n =>
    exact ⟨i, { lim := ((Pc.loaded n).step s.lim).1,
                pcs := s.pcs.set i ((Pc.loaded n).step s.lim).2 },
      by simp [Conc.step, hi]⟩

/-- In a final state that satisfies the invariant, with `k ≤ n`, exactly `k`
goroutines were admitted and the counter is zero. -/
theorem Conc.final_count {k n : Nat} {s : Conc} (hk : k ≤ n)
    (hinv : Conc.Inv (k : Int) n s) (hfin : s.final) :
    s.returned true = k ∧ s.returned false = n - k ∧ s.lim.token = 0 := by
  obtain ⟨h0, hsum, _, hdf, hlen⟩ := hinv
  have hadd := count_done_add s.pcs ((Conc.final_iff s).mp hfin)
  simp only [Conc.returned] at hsum ⊢
  have htok : s.lim.token = 0 := by
    by_cases hf : Pc.done false ∈ s.pcs
    · exact hdf hf
    · have : s.pcs.count (Pc.done false) = 0 := List.count_eq_zero.mpr hf
      omega
  refine ⟨?_, ?_, htok⟩ <;> omega

/-- C3: `N` goroutines call `Allow` concurrently on a counter holding `K`,
`0 ≤ K ≤ N`, with no `End` and no publication.  Whatever the interleaving of
their `Load` and `CompareAndSwap` steps, the run has at most `N * (3 * K + 1)`
steps, a state in which some call has not returned always has a next step, and
once all calls have returned exactly `K` of them returned `true`, `N - K`
returned `false`, and the counter is `0`. -/
theorem C3_concurrent_allow (N K : Nat) (hK : K ≤ N) (sched : List Nat) (s : Conc)
    (hrun : (Conc.init (K : Int) N).run sched = some s) :
    sched.length ≤ N * (3 * K + 1) ∧
    (¬ s.final → ∃ i s', s.step i = some s') ∧
    (s.final → s.returned true = K ∧ s.returned false = N - K ∧ s.lim.token = 0) := by
  have hpot := Conc.run_pot sched _ s hrun
  rw [Conc.init_pot] at hpot
  have hinv := Conc.inv_run sched _ s (Conc.inv_init (K : Int) (by omega) N) hrun
  refine ⟨?_, Conc.progress s, fun hfin => Conc.final_count hK hinv hfin⟩
  simp only [Int.toNat_ofNat] at hpot
  omega

/-- Witness for C3: two goroutines race for one token; both load `1`, the
first swaps, the second fails its swap, reloads and is refused. -/
theorem C3_concurrent_allow_witness :
    (Conc.init ((1 : Nat) : Int) 2).run [0, 1, 0, 1, 1] =
        some { lim := { token := 0 }, pcs := [Pc.done true, Pc.done false] } ∧
    [0, 1, 0, 1, 1].length ≤ 2 * (3 * 1 + 1) ∧
    (Conc.returned { lim := { token := 0 }, pcs := [Pc.done true, Pc.done false] } true = 1 ∧
     Conc.returned { lim := { token := 0 }, pcs := [Pc.done true, Pc.done false] } false = 2 - 1 ∧
     (Conc.mk { token := 0 } [Pc.done true, Pc.done false]).lim.token = 0) :=
  have h := C3_concurrent_allow 2 1 (by decide) [0, 1, 0, 1, 1]
    { lim := { token := 0 }, pcs := [Pc.done true, Pc.done false] } (by decide)
  ⟨by decide, h.1, h.2.2 (by decide)⟩

/-! ### The sampler's policy -/

/-- Below `2^53` the conversion to `float64` is exact; from `2^53` on the
result is at least `2^53`. -/
theorem roundF64_cases (x : Nat) :
    (x < 9007199254740992 ∧ roundF64 x = x) ∨
    (9007199254740992 ≤ x ∧ 9007199254740992 ≤ roundF64 x) := by
  by_cases hx : x < 9007199254740992
  · left
    exact ⟨hx, by simp [roundF64, hx]⟩
  · right
    have hx' : 9007199254740992 ≤ x := by omega
    refine ⟨hx', ?_⟩
    have hne : x ≠ 0 := by omega
    have hlog : 53 ≤ Nat.log2 x := (Nat.le_log2 hne).mpr (by norm_num; exact hx')
    have hpow : 2 ^ Nat.log2 x ≤ x := Nat.log2_self_le hne
    have he : 2 ^ 52 * 2 ^ (Nat.log2 x - 52) = 2 ^ Nat.log2 x := by
      rw [← pow_add]
      congr 1
      omega
    have hpos : 0 < 2 ^ (Nat.log2 x - 52) := Nat.pow_pos (by norm_num)
    have hq : 2 ^ 52 ≤ x / 2 ^ (Nat.log2 x - 52) :=
      (Nat.le_div_iff_mul_le hpos).mpr (by rw [he]; exact hpow)
    have h2 : 2 ^ 1 ≤ 2 ^ (Nat.log2 x - 52) :=
      Nat.pow_le_pow_right (by norm_num) (by omega)
    have hmul : ∀ q', x / 2 ^ (Nat.log2 x - 52) ≤ q' →
        9007199254740992 ≤ q' * 2 ^ (Nat.log2 x - 52) := by
      intro q' hq'
      calc 9007199254740992 = 2 ^ 52 * 2 ^ 1 := by norm_num
        _ ≤ q' * 2 ^ (Nat.log2 x - 52) := Nat.mul_le_mul (le_trans hq hq') h2
    simp only [roundF64, hx, if_false]
    apply hmul
    split_ifs <;> omega

/-- The constant `math.MaxInt64` becomes `2^63` when converted to `float64`. -/
theorem roundF64_maxInt64 : roundF64 maxInt64.toNat = 9223372036854775808 := by
  have hn : maxInt64.toNat = 9223372036854775807 := by decide
  have hlog : Nat.log2 9223372036854775807 = 62 := by
    have h₁ : 62 ≤ Nat.log2 9223372036854775807 :=
      (Nat.le_log2 (by norm_num)).mpr (by norm_num)
    have h₂ : Nat.log2 9223372036854775807 < 63 :=
      (Nat.log2_lt (by norm_num)).mpr (by norm_num)
    omega
  rw [hn]
  simp only [roundF64, hlog]
  norm_num

/-- A `float64(a) / gb1 < p / q` test, decided on natural numbers. -/
theorem div_gb1_lt_iff (x p q : Nat) (hq : 0 < q) :
    ((x : ℚ) / gb1 < (p : ℚ) / (q : ℚ)) ↔ x * q < p * 1073741824 := by
  have hq' : (0 : ℚ) < (q : ℚ) := by exact_mod_cast hq
  have hg : (0 : ℚ) < gb1 := by norm_num [gb1]
  rw [div_lt_div_iff₀ hg hq']
  have : gb1 = ((1073741824 : Nat) : ℚ) := by norm_num [gb1]
  rw [this]
  norm_cast

/-- The test `ava/gb1 < 0.05` holds exactly up to 53687091 bytes. -/
theorem band_0_05 (a : Nat) : ((roundF64 a : ℚ) / gb1 < f64_0_05) ↔ a ≤ 53687091 := by
  have h := div_gb1_lt_iff (roundF64 a) 3602879701896397 72057594037927936 (by norm_num)
  have hc : f64_0_05 = ((3602879701896397 : Nat) : ℚ) / ((72057594037927936 : Nat) : ℚ) := by
    norm_num [f64_0_05]
  rw [hc, h]
  rcases roundF64_cases a with ⟨h₁, h₂⟩ | ⟨h₁, h₂⟩ <;> omega

/-- The test `ava/gb1 < 0.10` holds exactly up to 107374182 bytes. -/
theorem band_0_10 (a : Nat) : ((roundF64 a : ℚ) / gb1 < f64_0_10) ↔ a ≤ 107374182 := by
  have h := div_gb1_lt_iff (roundF64 a) 3602879701896397 36028797018963968 (by norm_num)
  have hc : f64_0_10 = ((3602879701896397 : Nat) : ℚ) / ((36028797018963968 : Nat) : ℚ) := by
    norm_num [f64_0_10]
  rw [hc, h]
  rcases roundF64_cases a with ⟨h₁, h₂⟩ | ⟨h₁, h₂⟩ <;> omega

/-- The test `ava/gb1 < 0.15` holds exactly up to 161061273 bytes. -/
theorem band_0_15 (a : Nat) : ((roundF64 a : ℚ) / gb1 < f64_0_15) ↔ a ≤ 161061273 := by
  have h := div_gb1_lt_iff (roundF64 a) 5404319552844595 36028797018963968 (by norm_num)
  have hc : f64_0_15 = ((5404319552844595 : Nat) : ℚ) / ((36028797018963968 : Nat) : ℚ) := by
    norm_num [f64_0_15]
  rw [hc, h]
  rcases roundF64_cases a with ⟨h₁, h₂⟩ | ⟨h₁, h₂⟩ <;> omega

/-- A whole number of bytes is below `p/100` of 1 GiB exactly when one hundred
times it is below `p * 2^30`. -/
theorem lt_percent_gib (a p : Nat) :
    ((a : ℚ) < (p : ℚ) / 100 * 2 ^ 30) ↔ a * 100 < p * 1073741824 := by
  have : (p : ℚ) / 100 * 2 ^ 30 = ((p * 1073741824 : Nat) : ℚ) / ((100 : Nat) : ℚ) := by
    push_cast
    ring
  rw [this, lt_div_iff₀ (by norm_num)]
  norm_cast

/-- The value of `next2` at the `Store`, for a parallelism within range that
stays the same, as the minimum of the two table look-ups with the memory bands
given in bytes. -/
theorem next2_eq (P : Int) (hP : 1 ≤ P) (hP' : P ≤ maxProcs) (u : ℚ) (a : Nat) :
    next2 (mulPerCpu P 300) P u (roundF64 a : ℚ) =
      min (if u > 85 then 10 * P else if u > 75 then 32 * P
           else if u > 65 then 64 * P else 300 * P)
          (if a ≤ 53687091 then 10 * P else if a ≤ 107374182 then 32 * P
           else if a ≤ 161061273 then 64 * P else 300 * P) := by
  have e300 := mulPerCpu_eq P 300 hP hP' (by omega) (by omega)
  have e10 := mulPerCpu_eq P 10 hP hP' (by omega) (by omega)
  have e32 := mulPerCpu_eq P 32 hP hP' (by omega) (by omega)
  have e64 := mulPerCpu_eq P 64 hP hP' (by omega) (by omega)
  simp only [next2, e300, e10, e32, e64, band_0_05, band_0_10, band_0_15]
  split_ifs <;> omega

/-- The memory candidate of the specification with its bands given in bytes. -/
theorem specMemCandidate_eq (P : Int) (a : Nat) :
    specMemCandidate P a =
      (if a ≤ 53687091 then 10 * P else if a ≤ 107374182 then 32 * P
       else if a ≤ 161061273 then 64 * P else 300 * P) := by
  have h5 : ((a : ℚ) < 5 / 100 * 2 ^ 30) ↔ a ≤ 53687091 := by
    have := lt_percent_gib a 5
    simp only [Nat.cast_ofNat] at this
    rw [this]; omega
  have h10 : ((a : ℚ) < 10 / 100 * 2 ^ 30) ↔ a ≤ 107374182 := by
    have := lt_percent_gib a 10
    simp only [Nat.cast_ofNat] at this
    rw [this]; omega
  have h15 : ((a : ℚ) < 15 / 100 * 2 ^ 30) ↔ a ≤ 161061273 := by
    have := lt_percent_gib a 15
    simp only [Nat.cast_ofNat] at this
    rw [this]; omega
  simp only [specMemCandidate, h5, h10, h15]

/-- The published capacity is `next2` of the two probe values. -/
theorem published_eq (P : Int) (cpu : Except String (List ℚ)) (mem : Except String Nat) :
    published P cpu mem =
      next2 (mulPerCpu P 300) P (getCPUUsage cpu) (getMemoryAvailable mem) := by
  simp [published, Limit.adjustBody, Limit.Store, Sampler.init]

/-- The published capacity for a CPU value `u` and `a` available bytes, both
probes having succeeded. -/
theorem published_ok (P : Int) (hP : 1 ≤ P) (hP' : P ≤ maxProcs) (u : ℚ) (rest : List ℚ)
    (a : Nat) :
    published P (.ok (u :: rest)) (.ok a) =
      min (if u > 85 then 10 * P else if u > 75 then 32 * P
           else if u > 65 then 64 * P else 300 * P)
          (if a ≤ 53687091 then 10 * P else if a ≤ 107374182 then 32 * P
           else if a ≤ 161061273 then 64 * P else 300 * P) := by
  rw [published_eq]
  exact next2_eq P hP hP' u a

/-- Whatever the probes return, the capacity an iteration computes lies between
the smallest and the largest of the limits it chooses from. -/
theorem next2_bounds (d P : Int) (hP : 1 ≤ P) (hP' : P ≤ maxProcs) (tmp ava : ℚ) :
    min d (10 * P) ≤ next2 d P tmp ava ∧ next2 d P tmp ava ≤ max d (64 * P) := by
  have e10 := mulPerCpu_eq P 10 hP hP' (by omega) (by omega)
  have e32 := mulPerCpu_eq P 32 hP hP' (by omega) (by omega)
  have e64 := mulPerCpu_eq P 64 hP hP' (by omega) (by omega)
  simp only [next2, e10, e32, e64]
  constructor <;> split_ifs <;> omega

/-- C4: for a parallelism `P ≥ 1` that stays fixed, every CPU reading `u` and
every reading `a` of available bytes, the capacity one iteration of `adjust`
publishes is `min(300*P, cpu_candidate, memory_candidate)` with the candidates
of the specification's tables; a memory reading in the lowest band gives
`10*P` whatever the CPU reading is, for instance CPU 40% with 40 MB. -/
theorem C4_capacity_is_min (P : Int) (hP : 1 ≤ P) (hP' : P ≤ maxProcs) (u : ℚ)
    (rest : List ℚ) (a : Nat) :
    published P (.ok (u :: rest)) (.ok a) = specCapacity P u a ∧
    ((a : ℚ) < 5 / 100 * 2 ^ 30 → published P (.ok (u :: rest)) (.ok a) = 10 * P) ∧
    published P (.ok [40]) (.ok 40000000) = 10 * P := by
  have hpub := published_ok P hP hP'
  refine ⟨?_, ?_, ?_⟩
  · rw [hpub, specCapacity, specMemCandidate_eq, specCpuCandidate]
    split_ifs <;> omega
  · intro ha
    have ha' : a ≤ 53687091 := by
      have := (lt_percent_gib a 5).mp (by simpa using ha)
      omega
    rw [hpub]
    simp only [ha', if_true]
    split_ifs <;> omega
  · rw [hpub]
    norm_num
    omega

/-- Witness for C4 on one processor: CPU 40%, 40 MB available. -/
theorem C4_capacity_is_min_witness :
    published 1 (.ok (40 :: [])) (.ok 40000000) = specCapacity 1 40 40000000 ∧
    (((40000000 : Nat) : ℚ) < 5 / 100 * 2 ^ 30 →
      published 1 (.ok (40 :: [])) (.ok 40000000) = 10 * 1) ∧
    published 1 (.ok [40]) (.ok 40000000) = 10 * 1 :=
  C4_capacity_is_min 1 (by decide) (by decide) 40 [] 40000000

/-- C5: for a fixed parallelism `P ≥ 1` and every CPU utilisation `u`, when
the available memory is at least 0.15 GiB the published capacity is `10*P` for
`u > 85`, `32*P` for `75 < u ≤ 85`, `64*P` for `65 < u ≤ 75` and `300*P` for
`u ≤ 65`; CPU 90% with 10 GB available gives `10*P`. -/
theorem C5_cpu_bands (P : Int) (hP : 1 ≤ P) (hP' : P ≤ maxProcs) (u : ℚ)
    (rest : List ℚ) (a : Nat) (hmem : (15 : ℚ) / 100 * 2 ^ 30 ≤ (a : ℚ)) :
    (85 < u → published P (.ok (u :: rest)) (.ok a) = 10 * P) ∧
    (75 < u → u ≤ 85 → published P (.ok (u :: rest)) (.ok a) = 32 * P) ∧
    (65 < u → u ≤ 75 → published P (.ok (u :: rest)) (.ok a) = 64 * P) ∧
    (u ≤ 65 → published P (.ok (u :: rest)) (.ok a) = 300 * P) ∧
    published P (.ok [90]) (.ok 10000000000) = 10 * P := by
  have hpub := published_ok P hP hP'
  have ha : ¬ a ≤ 161061273 := by
    intro hle
    have h₁ : ¬ ((a : ℚ) < (15 : ℚ) / 100 * 2 ^ 30) := not_lt.mpr hmem
    have h₂ := (lt_percent_gib a 15).not.mp (by simpa using h₁)
    omega
  have ha₁ : ¬ a ≤ 53687091 := by omega
  have ha₂ : ¬ a ≤ 107374182 := by omega
  refine ⟨?_, ?_, ?_, ?_, ?_⟩
  · intro h
    rw [hpub]
    simp only [gt_iff_lt, h, if_true, ha, ha₁, ha₂, if_false]
    omega
  · intro h h'
    rw [hpub]
    simp only [gt_iff_lt, h, not_lt.mpr h', if_true, ha, ha₁, ha₂, if_false]
    omega
  · intro h h'
    have h'' : ¬ (85 < u) := not_lt.mpr (le_trans h' (by norm_num))
    rw [hpub]
    simp only [gt_iff_lt, h, not_lt.mpr h', h'', if_true, ha, ha₁, ha₂, if_false]
    omega
  · intro h
    have h₁ : ¬ (85 < u) := not_lt.mpr (le_trans h (by norm_num))
    have h₂ : ¬ (75 < u) := not_lt.mpr (le_trans h (by norm_num))
    rw [hpub]
    simp only [gt_iff_lt, not_lt.mpr h, h₁, h₂, if_true, ha, ha₁, ha₂, if_false]
    omega
  · rw [hpub]
    norm_num
    omega

/-- Witness for C5 on one processor: CPU exactly 85% with 10 GB available
falls in the `32*P` band. -/
theorem C5_cpu_bands_witness :
    (15 : ℚ) / 100 * 2 ^ 30 ≤ ((10000000000 : Nat) : ℚ) ∧
    published 1 (.ok (85 :: [])) (.ok 10000000000) = 32 * 1 ∧
    published 1 (.ok [90]) (.ok 10000000000) = 10 * 1 :=
  have h := C5_cpu_bands 1 (by decide) (by decide) 85 [] 10000000000 (by norm_num)
  ⟨by norm_num, h.2.1 (by norm_num) (by norm_num), h.2.2.2.2⟩

/-- C6: for a fixed parallelism `P ≥ 1` and every reading `a` of available
memory in whole bytes, when the CPU utilisation is at most 65 the published
capacity is `10*P` for `a < 0.05*2^30`, `32*P` for `0.05*2^30 ≤ a < 0.10*2^30`,
`64*P` for `0.10*2^30 ≤ a < 0.15*2^30` and `300*P` otherwise; in bytes the three
bands end at 53687091, 107374182 and 161061273. -/
theorem C6_memory_bands (P : Int) (hP : 1 ≤ P) (hP' : P ≤ maxProcs) (u : ℚ)
    (rest : List ℚ) (a : Nat) (hu : u ≤ 65) :
    ((a : ℚ) < 5 / 100 * 2 ^ 30 → published P (.ok (u :: rest)) (.ok a) = 10 * P) ∧
    ((5 : ℚ) / 100 * 2 ^ 30 ≤ a → (a : ℚ) < 10 / 100 * 2 ^ 30 →
      published P (.ok (u :: rest)) (.ok a) = 32 * P) ∧
    ((10 : ℚ) / 100 * 2 ^ 30 ≤ a → (a : ℚ) < 15 / 100 * 2 ^ 30 →
      published P (.ok (u :: rest)) (.ok a) = 64 * P) ∧
    ((15 : ℚ) / 100 * 2 ^ 30 ≤ a → published P (.ok (u :: rest)) (.ok a) = 300 * P) ∧
    (((a : ℚ) < 5 / 100 * 2 ^ 30) ↔ a ≤ 53687091) ∧
    (((a : ℚ) < 10 / 100 * 2 ^ 30) ↔ a ≤ 107374182) ∧
    (((a : ℚ) < 15 / 100 * 2 ^ 30) ↔ a ≤ 161061273) := by
  have hpub := published_ok P hP hP' u rest a
  have h₁ : ¬ (85 < u) := not_lt.mpr (le_trans hu (by norm_num))
  have h₂ : ¬ (75 < u) := not_lt.mpr (le_trans hu (by norm_num))
  have h₃ : ¬ (65 < u) := not_lt.mpr hu
  simp only [gt_iff_lt, h₁, h₂, h₃, if_false] at hpub
  have h5 : ((a : ℚ) < 5 / 100 * 2 ^ 30) ↔ a ≤ 53687091 := by
    have := lt_percent_gib a 5
    simp only [Nat.cast_ofNat] at this
    rw [this]; omega
  have h10 : ((a : ℚ) < 10 / 100 * 2 ^ 30) ↔ a ≤ 107374182 := by
    have := lt_percent_gib a 10
    simp only [Nat.cast_ofNat] at this
    rw [this]; omega
  have h15 : ((a : ℚ) < 15 / 100 * 2 ^ 30) ↔ a ≤ 161061273 := by
    have := lt_percent_gib a 15
    simp only [Nat.cast_ofNat] at this
    rw [this]; omega
  refine ⟨?_, ?_, ?_, ?_, h5, h10, h15⟩
  · intro h
    have := h5.mp h
    rw [hpub]
    split_ifs
    omega
  · intro h h'
    have := h5.not.mp (not_lt.mpr h)
    have := h10.mp h'
    rw [hpub]
    split_ifs
    omega
  · intro h h'
    have := h10.not.mp (not_lt.mpr h)
    have := h15.mp h'
    rw [hpub]
    split_ifs <;> omega
  · intro h
    have := h15.not.mp (not_lt.mpr h)
    rw [hpub]
    split_ifs <;> omega

/-- Witness for C6 on one processor: CPU 65%, 53687092 bytes available, the
first byte count of the `32*P` band. -/
theorem C6_memory_bands_witness :
    (65 : ℚ) ≤ 65 ∧ published 1 (.ok (65 :: [])) (.ok 53687092) = 32 * 1 :=
  ⟨le_refl _,
    (C6_memory_bands 1 (by decide) (by decide) 65 [] 53687092 (le_refl _)).2.1
      (by norm_num) (by norm_num)⟩

/-- C7: a failed probe is neutral.  When the CPU probe fails (an error, or an
empty result) `getCPUUsage` yields 1 and the published capacity is the
memory-only capacity `min(300*P, memory_candidate)`; when the memory probe
fails `getMemoryAvailable` yields `math.MaxInt64` as a `float64` (`2^63`) and
the published capacity is the CPU-only capacity; when both fail it is
`300*P`, the capacity without pressure. -/
theorem C7_probe_failures (P : Int) (hP : 1 ≤ P) (hP' : P ≤ maxProcs) (e e' : String)
    (u : ℚ) (rest : List ℚ) (a : Nat) :
    getCPUUsage (.error e) = 1 ∧ getCPUUsage (.ok []) = 1 ∧
    published P (.error e) (.ok a) = min (300 * P) (specMemCandidate P a) ∧
    published P (.ok []) (.ok a) = min (300 * P) (specMemCandidate P a) ∧
    getMemoryAvailable (.error e') = ((roundF64 maxInt64.toNat : Nat) : ℚ) ∧
    getMemoryAvailable (.error e') = 9223372036854775808 ∧
    published P (.ok (u :: rest)) (.error e') = min (300 * P) (specCpuCandidate P u) ∧
    published P (.error e) (.error e') = 300 * P ∧
    published P (.ok []) (.error e') = 300 * P := by
  have hmax := roundF64_maxInt64
  have hone : ∀ a : Nat, next2 (mulPerCpu P 300) P 1 (roundF64 a : ℚ) =
      min (300 * P) (specMemCandidate P a) := by
    intro a
    rw [next2_eq P hP hP', specMemCandidate_eq]
    norm_num
  have hbig : ∀ v : ℚ, next2 (mulPerCpu P 300) P v (roundF64 maxInt64.toNat : ℚ) =
      min (300 * P) (specCpuCandidate P v) := by
    intro v
    have hn : maxInt64.toNat = 9223372036854775807 := by decide
    rw [next2_eq P hP hP', hn, specCpuCandidate]
    norm_num
    split_ifs <;> omega
  refine ⟨rfl, rfl, ?_, ?_, rfl, ?_, ?_, ?_, ?_⟩
  · rw [published_eq]; exact hone a
  · rw [published_eq]; exact hone a
  · simp only [getMemoryAvailable, hmax]; norm_num
  · rw [published_eq]; exact hbig u
  · rw [published_eq]
    show next2 (mulPerCpu P 300) P 1 (roundF64 maxInt64.toNat : ℚ) = 300 * P
    rw [hbig 1, specCpuCandidate]
    norm_num
  · rw [published_eq]
    show next2 (mulPerCpu P 300) P 1 (roundF64 maxInt64.toNat : ℚ) = 300 * P
    rw [hbig 1, specCpuCandidate]
    norm_num

/-- Witness for C7 on one processor: both probes fail and the default capacity
300 is published. -/
theorem C7_probe_failures_witness :
    (1 : Int) ≤ 1 ∧ (1 : Int) ≤ maxProcs ∧
    published 1 (.error "cpu") (.error "mem") = 300 * 1 :=
  ⟨by decide, by decide,
    (C7_probe_failures 1 (by decide) (by decide) "cpu" "mem" 0 [] 0).2.2.2.2.2.2.2.1⟩

/-! ### Request handlers and sampler together -/

/-- Running a concatenation is running the parts in turn. -/
theorem Sys.run_append (fuel : Nat) : ∀ (es₁ es₂ : List Event) (s : Sys),
    s.run fuel (es₁ ++ es₂) = (s.run fuel es₁).bind (fun s' => s'.run fuel es₂)
  | [], es₂, s => by simp [Sys.run]
  | e :: es₁, es₂, s => by
    simp only [List.cons_append, Sys.run]
    cases s.exec fuel e with
    | none => simp
    | some s' => simpa using Sys.run_append fuel es₁ es₂ s'

/-- While the counter lasts, `k` calls of `Allow` in a row are all admitted:
the counter drops by `k` and `k` more requests are in flight. -/
theorem Sys.run_allows (fuel : Nat) : ∀ (k c : Nat) (s : Sys),
    s.lim.token = (c : Int) → k ≤ c →
    s.run (fuel + 1) (List.replicate k Event.allow) =
      some { lim := { token := (c : Int) - (k : Int) }, sampler := s.sampler,
             inflight := s.inflight + k }
  | 0, c, s, h, _ => by
    obtain ⟨⟨tok⟩, smp, inf⟩ := s
    simp only at h
    simp [Sys.run, h]
  | k + 1, c, s, h, hk => by
    obtain ⟨⟨tok⟩, smp, inf⟩ := s
    simp only at h
    subst h
    have hpos : (0 : Int) < (c : Int) := by omega
    have hc : ((c - 1 : Nat) : Int) = (c : Int) - 1 := by omega
    have ih := Sys.run_allows fuel k (c - 1)
      { lim := { token := (c : Int) - 1 }, sampler := smp, inflight := inf + 1 }
      (by simp only; omega) (by omega)
    simp only [List.replicate_succ, Sys.run, Sys.exec, Limit.Allow_succ, hpos, if_true, ih]
    simp only [Option.some.injEq, Sys.mk.injEq, Limit.mk.injEq, true_and]
    constructor <;> push_cast <;> omega

/-- The state after one iteration of `adjust`. -/
theorem Sys.exec_tick (fuel : Nat) (s : Sys) (t : Tick) :
    s.exec fuel (Event.tick t) =
      some { lim := { token := next2 s.sampler.default_limit t.procs (getCPUUsage t.cpu)
                                (getMemoryAvailable t.mem) },
             sampler := { default_limit := s.sampler.default_limit,
                          next := next2 s.sampler.default_limit t.procs (getCPUUsage t.cpu)
                                    (getMemoryAvailable t.mem) },
             inflight := s.inflight } := by
  simp [Sys.exec, Limit.adjustBody, Limit.Store]

/-- The state right after `NewLimit` on one processor. -/
theorem Sys.init_one :
    Sys.init 1 = { lim := { token := 300 }, sampler := { default_limit := 300, next := 300 },
                   inflight := 0 } := by
  decide

/-- On one processor: 300 admitted requests, one iteration of `adjust` that
sees no pressure, one more `Allow`.  The iteration refills the counter and the
last `Allow` is admitted. -/
theorem Sys.run_refill :
    (Sys.init 1).run 1
        (List.replicate 300 Event.allow ++
          [Event.tick { procs := 1, cpu := .ok [1], mem := .ok 8000000000 }, Event.allow]) =
      some { lim := { token := 299 }, sampler := { default_limit := 300, next := 300 },
             inflight := 301 } := by
  have h300 : mulPerCpu 1 300 = 300 := by decide
  have hn : next2 300 1 1 ((roundF64 8000000000 : Nat) : ℚ) = 300 := by
    have := next2_eq 1 (by decide) (by decide) 1 8000000000
    rw [h300] at this
    rw [this]
    norm_num
  have h₁ : (Sys.init 1).run 1 (List.replicate 300 Event.allow) =
      some { lim := { token := 0 }, sampler := { default_limit := 300, next := 300 },
             inflight := 300 } := by
    have := Sys.run_allows 0 300 300 (Sys.init 1) (by rw [Sys.init_one]; rfl) (by omega)
    rw [this, Sys.init_one]
    norm_num
  have h₂ : Sys.exec 1 { lim := { token := 0 }, sampler := { default_limit := 300, next := 300 },
                         inflight := 300 }
        (Event.tick { procs := 1, cpu := .ok [1], mem := .ok 8000000000 }) =
      some { lim := { token := 300 }, sampler := { default_limit := 300, next := 300 },
             inflight := 300 } := by
    rw [Sys.exec_tick]
    simp only [getCPUUsage, getMemoryAvailable, hn]
  have h₃ : Sys.exec 1 { lim := { token := 300 }, sampler := { default_limit := 300, next := 300 },
                         inflight := 300 } Event.allow =
      some { lim := { token := 299 }, sampler := { default_limit := 300, next := 300 },
             inflight := 301 } := by
    decide
  rw [Sys.run_append, h₁]
  simp only [Option.bind, Sys.run, h₂, h₃]

/-- C8 as stated fails: on one processor, 300 admitted requests, one
iteration of `adjust` that sees no pressure, and one more `Allow` put 301
requests in flight, more than `300 * P`. -/
theorem C8_inflight_exceeds_default :
    (Sys.init 1).run 1
        (List.replicate 300 Event.allow ++
          [Event.tick { procs := 1, cpu := .ok [1], mem := .ok 8000000000 }, Event.allow]) =
      some { lim := { token := 299 }, sampler := { default_limit := 300, next := 300 },
             inflight := 301 } ∧
    (300 * 1 : Int) < ((301 : Nat) : Int) :=
  ⟨Sys.run_refill, by decide⟩

/-- The wrapped value is an `int64`, and wrapping a value that is not below the
`int64` range does not raise it. -/
theorem wrapInt64_bounds (x : Int) :
    minInt64 ≤ wrapInt64 x ∧ wrapInt64 x ≤ maxInt64 ∧ (minInt64 ≤ x → wrapInt64 x ≤ x) := by
  unfold minInt64 maxInt64 wrapInt64
  refine ⟨by omega, by omega, fun h => by omega⟩

/-- One operation at parallelism `P`: the requests in flight, and the counter
plus the requests in flight, stay within a bound `B`, which a sampler iteration
raises by `300 * P`. -/
theorem Sys.within_exec (fuel : Nat) (P : Int) (hP : 1 ≤ P) (hP' : P ≤ maxProcs) (B : Int)
    (s s' : Sys) (e : Event) (he : e.readsProcs P = true)
    (hd : s.sampler.default_limit = mulPerCpu P 300) (hmin : minInt64 ≤ s.lim.token)
    (hin : (s.inflight : Int) ≤ B) (hsum : s.lim.token + (s.inflight : Int) ≤ B)
    (h : s.exec (fuel + 1) e = some s') :
    s'.sampler.default_limit = mulPerCpu P 300 ∧ minInt64 ≤ s'.lim.token ∧
    (s'.inflight : Int) ≤ B + (if e.isTick then 300 * P else 0) ∧
    s'.lim.token + (s'.inflight : Int) ≤ B + (if e.isTick then 300 * P else 0) := by
  have hmin' := hmin
  unfold minInt64 at hmin'
  cases e with
  | allow =>
    by_cases hpos : 0 < s.lim.token
    · simp [Sys.exec, Limit.Allow_succ, hpos] at h
      subst h
      simp only [Event.isTick]
      refine ⟨hd, ?_, ?_, ?_⟩
      · unfold minInt64; omega
      · simp only [Bool.false_eq_true, if_false]; push_cast; omega
      · simp only [Bool.false_eq_true, if_false]; push_cast; omega
    · simp [Sys.exec, Limit.Allow_succ, hpos] at h
      subst h
      simp only [Event.isTick, Bool.false_eq_true, if_false]
      exact ⟨hd, hmin, by omega, by omega⟩
  | finish =>
    by_cases hz : s.inflight = 0
    · simp [Sys.exec, hz] at h
    · simp only [Sys.exec, hz, if_false, Option.some.injEq] at h
      subst h
      have hw := wrapInt64_bounds (s.lim.token + 1)
      have hle := hw.2.2 (by unfold minInt64; omega)
      simp only [Event.isTick, Bool.false_eq_true, if_false, Limit.End, Limit.Add]
      refine ⟨hd, hw.1, ?_, ?_⟩ <;> omega
  | tick t =>
    rw [Sys.exec_tick] at h
    simp only [Option.some.injEq] at h
    subst h
    have ht : t.procs = P := by simpa [Event.readsProcs] using he
    have e300 := mulPerCpu_eq P 300 hP hP' (by omega) (by omega)
    have hn := next2_bounds s.sampler.default_limit t.procs (by omega) (by omega)
      (getCPUUsage t.cpu) (getMemoryAvailable t.mem)
    rw [hd, e300, ht] at hn
    simp only [Event.isTick, if_true]
    rw [hd, e300, ht]
    refine ⟨rfl, ?_, ?_, ?_⟩
    · unfold minInt64; omega
    · omega
    · omega

/-- A run at parallelism `P`: the requests in flight, and the counter plus the
requests in flight, stay within the initial bound `B` raised by `300 * P` for
each sampler iteration of the run. -/
theorem Sys.within_run (fuel : Nat) (P : Int) (hP : 1 ≤ P) (hP' : P ≤ maxProcs) :
    ∀ (es : List Event) (B : Int) (s s' : Sys), (∀ e ∈ es, e.readsProcs P = true) →
      s.sampler.default_limit = mulPerCpu P 300 → minInt64 ≤ s.lim.token →
      (s.inflight : Int) ≤ B → s.lim.token + (s.inflight : Int) ≤ B →
      s.run (fuel + 1) es = some s' →
      (s'.inflight : Int) ≤ B + 300 * P * (countTicks es : Int) ∧
      s'.lim.token + (s'.inflight : Int) ≤ B + 300 * P * (countTicks es : Int)
  | [], B, s, s', _, _, _, hin, hsum, h => by
    simp only [Sys.run, Option.some.injEq] at h
    subst h
    simp only [countTicks, Nat.cast_zero, mul_zero, add_zero]
    exact ⟨hin, hsum⟩
  | e :: es, B, s, s', hes, hd, hmin, hin, hsum, h => by
    simp only [Sys.run] at h
    cases hstep : s.exec (fuel + 1) e with
    | none => simp [hstep] at h
    | some s₁ =>
      simp only [hstep] at h
      have h₁ := Sys.within_exec fuel P hP hP' B s s₁ e (hes e (List.mem_cons_self e es))
        hd hmin hin hsum hstep
      have h₂ := Sys.within_run fuel P hP hP' es (B + (if e.isTick then 300 * P else 0)) s₁ s'
        (fun e' he' => hes e' (List.mem_cons_of_mem e he')) h₁.1 h₁.2.1 h₁.2.2.1 h₁.2.2.2 h
      have hc : B + 300 * P * ((countTicks (e :: es) : Nat) : Int) =
          B + (if e.isTick then 300 * P else 0) + 300 * P * (countTicks es : Int) := by
        by_cases ht : e.isTick = true
        · simp only [countTicks, ht, if_true]
          push_cast
          ring
        · simp only [countTicks, ht, if_false]
          push_cast
          ring
      rw [hc]
      exact h₂

/-- C8, amended: in every state reachable from `NewLimit` by `Allow` calls,
`End` calls that each match an earlier successful `Allow`, and `k` sampler
publications, all at parallelism `P`, the number of requests in flight is at
most `300 * P * (k + 1)`: each publication stores at most `300 * P`, the
largest limit, and so makes at most `300 * P` further admissions possible.
Before the first publication the number is at most `300 * P`. -/
theorem C8_inflight_bound (P : Int) (hP : 1 ≤ P) (hP' : P ≤ maxProcs) (fuel : Nat)
    (es : List Event) (hes : ∀ e ∈ es, e.readsProcs P = true) (s : Sys)
    (hrun : (Sys.init P).run (fuel + 1) es = some s) :
    (s.inflight : Int) ≤ 300 * P * ((countTicks es : Int) + 1) ∧
    (countTicks es = 0 → (s.inflight : Int) ≤ 300 * P) := by
  have e300 := mulPerCpu_eq P 300 hP hP' (by omega) (by omega)
  have h := Sys.within_run fuel P hP hP' es (300 * P) (Sys.init P) s hes
    (by simp [Sys.init, Sampler.init])
    (by simp only [Sys.init, NewLimit, Limit.Store, e300]; unfold minInt64; omega)
    (by simp only [Sys.init, Nat.cast_zero]; omega)
    (by simp only [Sys.init, NewLimit, Limit.Store, e300, Nat.cast_zero]; omega)
    hrun
  have hring : 300 * P + 300 * P * (countTicks es : Int) =
      300 * P * ((countTicks es : Int) + 1) := by ring
  refine ⟨by rw [← hring]; exact h.1, ?_⟩
  intro hz
  have := h.1
  rw [hz] at this
  simpa using this

/-- Witness for the amended C8 on one processor: the run with 300 admissions,
one publication and one more admission has 301 requests in flight, within
`300 * 1 * (1 + 1)`. -/
theorem C8_inflight_bound_witness :
    (((Sys.mk { token := 299 } { default_limit := 300, next := 300 } 301).inflight : Nat) : Int) ≤
      300 * 1 *
        ((countTicks (List.replicate 300 Event.allow ++
            [Event.tick { procs := 1, cpu := .ok [1], mem := .ok 8000000000 },
             Event.allow]) : Int) + 1) :=
  (C8_inflight_bound 1 (by decide) (by decide) 0
    (List.replicate 300 Event.allow ++
      [Event.tick { procs := 1, cpu := .ok [1], mem := .ok 8000000000 }, Event.allow])
    (by
      intro e he
      simp only [List.mem_append, List.mem_replicate, List.mem_cons, List.mem_singleton,
        List.not_mem_nil, or_false] at he
      rcases he with ⟨_, rfl⟩ | rfl | rfl
      · rfl
      · decide
      · rfl)
    { lim := { token := 299 }, sampler := { default_limit := 300, next := 300 },
      inflight := 301 }
    Sys.run_refill).1

/-- C9 as stated fails: on one processor, with 11 requests in flight an
iteration of `adjust` that sees CPU 90% publishes capacity 10; the next `Allow`
is admitted although 11 > 10 requests are in flight, which makes 12. -/
theorem C9_allow_during_overshoot :
    (Sys.init 1).run 1
        (List.replicate 11 Event.allow ++
          [Event.tick { procs := 1, cpu := .ok [90], mem := .ok 8000000000 }]) =
      some { lim := { token := 10 }, sampler := { default_limit := 300, next := 10 },
             inflight := 11 } ∧
    Limit.Allow 1 { token := 10 } = some (true, { token := 9 }) ∧
    Sys.exec 1 { lim := { token := 10 }, sampler := { default_limit := 300, next := 10 },
                 inflight := 11 } Event.allow =
      some { lim := { token := 9 }, sampler := { default_limit := 300, next := 10 },
             inflight := 12 } := by
  have h300 : mulPerCpu 1 300 = 300 := by decide
  have hn : next2 300 1 90 ((roundF64 8000000000 : Nat) : ℚ) = 10 := by
    have := next2_eq 1 (by decide) (by decide) 90 8000000000
    rw [h300] at this
    rw [this]
    norm_num
  have h₁ : (Sys.init 1).run 1 (List.replicate 11 Event.allow) =
      some { lim := { token := 289 }, sampler := { default_limit := 300, next := 300 },
             inflight := 11 } := by
    have := Sys.run_allows 0 11 300 (Sys.init 1) (by rw [Sys.init_one]; rfl) (by omega)
    rw [this, Sys.init_one]
    norm_num
  have h₂ : Sys.exec 1 { lim := { token := 289 }, sampler := { default_limit := 300, next := 300 },
                         inflight := 11 }
        (Event.tick { procs := 1, cpu := .ok [90], mem := .ok 8000000000 }) =
      some { lim := { token := 10 }, sampler := { default_limit := 300, next := 10 },
             inflight := 11 } := by
    rw [Sys.exec_tick]
    simp only [getCPUUsage, getMemoryAvailable, hn]
  refine ⟨?_, by decide, by decide⟩
  rw [Sys.run_append, h₁]
  simp only [Option.bind, Sys.run, h₂]

/-- C9, amended: a publication made while any number `m` of admitted requests
is outstanding stores the capacity `n` itself, with `10*P ≤ n ≤ 300*P`, and
leaves `m` as it is.  Of the `Allow` calls that follow, with no `End` and no
publication in between, exactly the first `n` return `true` and all later ones
return `false`; after `k ≤ n` of them `m + k` requests are in flight. -/
theorem C9_allow_after_publication (P : Int) (hP : 1 ≤ P) (hP' : P ≤ maxProcs) (fuel : Nat)
    (s : Sys) (t : Tick) (ht : t.procs = P)
    (hd : s.sampler.default_limit = mulPerCpu P 300) :
    ∃ s', s.exec (fuel + 1) (Event.tick t) = some s' ∧
      s'.inflight = s.inflight ∧ 10 * P ≤ s'.lim.token ∧ s'.lim.token ≤ 300 * P ∧
      (∀ k : Nat, ∃ l', Limit.AllowN (fuel + 1) k s'.lim =
          some (List.replicate (min k s'.lim.token.toNat) true ++
                List.replicate (k - s'.lim.token.toNat) false, l')) ∧
      (∀ k : Nat, k ≤ s'.lim.token.toNat →
        ∃ s'', s'.run (fuel + 1) (List.replicate k Event.allow) = some s'' ∧
          s''.inflight = s.inflight + k) := by
  have e300 := mulPerCpu_eq P 300 hP hP' (by omega) (by omega)
  have hn := next2_bounds s.sampler.default_limit t.procs (by omega) (by omega)
    (getCPUUsage t.cpu) (getMemoryAvailable t.mem)
  rw [hd, e300, ht] at hn
  refine ⟨_, Sys.exec_tick (fuel + 1) s t, rfl, ?_, ?_, ?_, ?_⟩
  · simp only [hd, e300, ht]; omega
  · simp only [hd, e300, ht]; omega
  · intro k
    have hcast : ((next2 s.sampler.default_limit t.procs (getCPUUsage t.cpu)
        (getMemoryAvailable t.mem)).toNat : Int) =
        next2 s.sampler.default_limit t.procs (getCPUUsage t.cpu)
          (getMemoryAvailable t.mem) := by
      apply Int.toNat_of_nonneg
      rw [hd, e300, ht]; omega
    have := Limit.AllowN_eq fuel k (next2 s.sampler.default_limit t.procs (getCPUUsage t.cpu)
      (getMemoryAvailable t.mem)).toNat
    rw [hcast] at this
    exact ⟨_, this⟩
  · intro k hk
    have hcast : ((next2 s.sampler.default_limit t.procs (getCPUUsage t.cpu)
        (getMemoryAvailable t.mem)).toNat : Int) =
        next2 s.sampler.default_limit t.procs (getCPUUsage t.cpu)
          (getMemoryAvailable t.mem) := by
      apply Int.toNat_of_nonneg
      rw [hd, e300, ht]; omega
    exact ⟨_, Sys.run_allows fuel k _ _ hcast.symm hk, rfl⟩

/-- Witness for the amended C9 on one processor: with 11 requests in flight
capacity 10 is published (CPU 90%), and the next 10 calls of `Allow` are all
admitted, which makes 21 in flight. -/
theorem C9_allow_after_publication_witness :
    ∃ s', Sys.exec (0 + 1)
        { lim := { token := 289 }, sampler := { default_limit := 300, next := 300 },
          inflight := 11 }
        (Event.tick { procs := 1, cpu := .ok [90], mem := .ok 8000000000 }) = some s' ∧
      s'.inflight = 11 ∧
      ∃ s'', s'.run (0 + 1) (List.replicate 10 Event.allow) = some s'' ∧ s''.inflight = 21 := by
  obtain ⟨s', h₁, h₂, h₃, _, _, h₆⟩ := C9_allow_after_publication 1 (by decide) (by decide) 0
    { lim := { token := 289 }, sampler := { default_limit := 300, next := 300 },
      inflight := 11 }
    { procs := 1, cpu := .ok [90], mem := .ok 8000000000 } rfl (by decide)
  obtain ⟨s'', h₇, h₈⟩ := h₆ 10 (by omega)
  exact ⟨s', h₁, h₂, s'', h₇, h₈⟩

/-! ### `End` followed by `Allow` -/

/-- C10 as stated fails: from a counter holding `-1`, `End` leaves `0` and the
`Allow` that follows returns `false`; from `math.MaxInt64`, `End` wraps to the
smallest `int64` and the `Allow` that follows returns `false`. -/
theorem C10_end_allow_counterexample :
    Limit.Allow 1 (Limit.End { token := -1 }) = some (false, { token := 0 }) ∧
    Limit.Allow 1 (Limit.End { token := maxInt64 }) = some (false, { token := minInt64 }) := by
  constructor <;> decide

/-- C10, amended: for every counter value `n` with `0 ≤ n < math.MaxInt64`, a
single-threaded `End` immediately followed by `Allow` makes that `Allow` return
`true`, and the counter is `n` again. -/
theorem C10_end_allow (n : Int) (fuel : Nat) (h₀ : 0 ≤ n) (h₁ : n < maxInt64) :
    Limit.Allow (fuel + 1) (Limit.End { token := n }) = some (true, { token := n }) := by
  have hw : wrapInt64 (n + 1) = n + 1 := by
    apply wrapInt64_of_mem
    · unfold minInt64; omega
    · omega
  have hpos : 0 < n + 1 := by omega
  simp [Limit.Allow_succ, Limit.End, Limit.Add, hw, hpos]

/-- Witness for the amended C10 at an exhausted budget, `n = 0`. -/
theorem C10_end_allow_witness :
    (0 : Int) ≤ 0 ∧ (0 : Int) < maxInt64 ∧
    Limit.Allow (0 + 1) (Limit.End { token := 0 }) = some (true, { token := 0 }) :=
  ⟨by decide, by decide, C10_end_allow 0 0 (by decide) (by decide)⟩

/-! ### Balanced `Allow` / `End` pairs -/

/-- Below `math.MaxInt64` the `int64` addition of `End` does not wrap: the
counter goes from `m` to `m + 1`. -/
theorem Limit.End_token (m : Int) (h₁ : minInt64 ≤ m) (h₂ : m < maxInt64) :
    (Limit.End { token := m }).token = m + 1 := by
  have hw : wrapInt64 (m + 1) = m + 1 := by
    apply wrapInt64_of_mem
    · unfold minInt64 at h₁ ⊢; omega
    · omega
  simp [Limit.End, Limit.Add, hw]

/-- C11: `End` adds exactly 1 to the counter (for every `int64` value below
`math.MaxInt64`, where the addition cannot wrap), so for every counter value
`n > 0` a successful `Allow` followed by `End`, nothing in between, leaves the
counter equal to `n`. -/
theorem C11_allow_end_conserves (n : Int) (fuel : Nat) (hn : 0 < n) (hn' : n ≤ maxInt64) :
    (∀ m : Int, minInt64 ≤ m → m < maxInt64 → (Limit.End { token := m }).token = m + 1) ∧
    Limit.Allow (fuel + 1) { token := n } = some (true, { token := n - 1 }) ∧
    Limit.End { token := n - 1 } = { token := n } := by
  refine ⟨Limit.End_token, ?_, ?_⟩
  · rw [Limit.Allow_succ]
    simp [hn]
  · have h := Limit.End_token (n - 1) (by unfold minInt64; omega) (by omega)
    have hn1 : n - 1 + 1 = n := by omega
    rw [hn1] at h
    cases hE : Limit.End { token := n - 1 } with
    | mk tok =>
      rw [hE] at h
      simp only at h
      rw [h]

/-- Witness for C11 with one token left: `Allow` takes it and `End` gives it
back. -/
theorem C11_allow_end_conserves_witness :
    (0 : Int) < 1 ∧ (1 : Int) ≤ maxInt64 ∧
    Limit.Allow (0 + 1) { token := 1 } = some (true, { token := 1 - 1 }) ∧
    Limit.End { token := 1 - 1 } = { token := 1 } :=
  ⟨by decide, by decide, (C11_allow_end_conserves 1 0 (by decide) (by decide)).2⟩

/-! ### `Allow` after an iteration of `adjust` -/

/-- C12: for every prior value of the counter (and of the sampler's `next`),
every result of the CPU probe, every result of the memory probe and every fixed
`P ≥ 1`, one iteration of `adjust` publishes a capacity of at least `10*P > 0`,
and the `Allow` that follows it, nothing in between, returns `true`. -/
theorem C12_allow_after_adjust (P : Int) (hP : 1 ≤ P) (hP' : P ≤ maxProcs) (l : Limit)
    (next : Int) (cpu : Except String (List ℚ)) (mem : Except String Nat) (fuel : Nat) :
    10 * P ≤ (l.adjustBody { default_limit := mulPerCpu P 300, next := next }
                { procs := P, cpu := cpu, mem := mem }).1.token ∧
    0 < 10 * P ∧
    ∃ l', Limit.Allow (fuel + 1)
        (l.adjustBody { default_limit := mulPerCpu P 300, next := next }
            { procs := P, cpu := cpu, mem := mem }).1 = some (true, l') := by
  have e300 := mulPerCpu_eq P 300 hP hP' (by omega) (by omega)
  have hb := (next2_bounds (mulPerCpu P 300) P hP hP' (getCPUUsage cpu)
    (getMemoryAvailable mem)).1
  rw [e300] at hb
  have htok : (l.adjustBody { default_limit := mulPerCpu P 300, next := next }
      { procs := P, cpu := cpu, mem := mem }).1.token =
      next2 (mulPerCpu P 300) P (getCPUUsage cpu) (getMemoryAvailable mem) := by
    simp [Limit.adjustBody, Limit.Store]
  have hge : 10 * P ≤ next2 (mulPerCpu P 300) P (getCPUUsage cpu) (getMemoryAvailable mem) := by
    rw [e300]
    omega
  refine ⟨by rw [htok]; exact hge, by omega, ?_⟩
  rw [Limit.Allow_succ]
  have hpos : 0 < (l.adjustBody { default_limit := mulPerCpu P 300, next := next }
      { procs := P, cpu := cpu, mem := mem }).1.token := by
    rw [htok]; omega
  simp [hpos]

/-- Witness for C12 on one processor: the budget is exhausted, both probes fail,
and the next `Allow` is admitted. -/
theorem C12_allow_after_adjust_witness :
    (1 : Int) ≤ 1 ∧ (1 : Int) ≤ maxProcs ∧
    ∃ l', Limit.Allow (0 + 1)
        ((Limit.mk 0).adjustBody { default_limit := mulPerCpu 1 300, next := 300 }
            { procs := 1, cpu := .error "cpu", mem := .error "mem" }).1 = some (true, l') :=
  ⟨by decide, by decide,
    (C12_allow_after_adjust 1 (by decide) (by decide) (Limit.mk 0) 300 (.error "cpu")
      (.error "mem") 0).2.2⟩

/-! ### The counter is never negative -/

/-- With fuel for one iteration, an operation fails to execute only when it is
an `End` with no request in flight. -/
theorem Sys.exec_of_enabled (fuel : Nat) (s : Sys) (e : Event) (h : e.enabled s = true) :
    ∃ s', s.exec (fuel + 1) e = some s' := by
  cases e with
  | allow =>
    by_cases hpos : 0 < s.lim.token
    · exact ⟨_, by simp [Sys.exec, Limit.Allow_succ, hpos]; rfl⟩
    · exact ⟨_, by simp [Sys.exec, Limit.Allow_succ, hpos]; rfl⟩
  | finish =>
    have hne : ¬ s.inflight = 0 := by
      simp [Event.enabled] at h
      omega
    exact ⟨_, by simp [Sys.exec, hne]; rfl⟩
  | tick t => exact ⟨_, Sys.exec_tick (fuel + 1) s t⟩

/-- The state right after `NewLimit` is within the bound for zero operations. -/
theorem Sys.bounded_init (P : Int) (hP : 1 ≤ P) (hP' : P ≤ maxProcs) :
    Sys.Bounded 0 (Sys.init P) := by
  have e300 := mulPerCpu_eq P 300 hP hP' (by omega) (by omega)
  unfold maxProcs at hP'
  simp only [Sys.Bounded, Sys.init, NewLimit, Limit.Store, Sampler.init, e300, maxCapacity]
  omega

/-- One operation keeps the state within the bound, as long as fewer than
`2^62` operations have been executed. -/
theorem Sys.bounded_exec (fuel : Nat) (k : Nat) (hk : k < 4611686018427387904)
    (s s' : Sys) (e : Event) (he : e.inRange = true) (hb : Sys.Bounded k s)
    (h : s.exec (fuel + 1) e = some s') : Sys.Bounded (k + 1) s' := by
  obtain ⟨h0, h1, h2, h3⟩ := hb
  unfold maxCapacity at h1 h3
  cases e with
  | allow =>
    by_cases hpos : 0 < s.lim.token
    · simp [Sys.exec, Limit.Allow_succ, hpos] at h
      subst h
      simp only [Sys.Bounded, maxCapacity]
      push_cast
      omega
    · simp [Sys.exec, Limit.Allow_succ, hpos] at h
      subst h
      simp only [Sys.Bounded, maxCapacity]
      push_cast
      omega
  | finish =>
    by_cases hin : s.inflight = 0
    · simp [Sys.exec, hin] at h
    · simp only [Sys.exec, hin, if_false, Option.some.injEq] at h
      subst h
      have hw : wrapInt64 (s.lim.token + 1) = s.lim.token + 1 := by
        apply wrapInt64_of_mem
        · unfold minInt64; omega
        · unfold maxInt64; omega
      simp only [Sys.Bounded, maxCapacity, Limit.End, Limit.Add, hw]
      push_cast
      omega
  | tick t =>
    rw [Sys.exec_tick] at h
    simp only [Option.some.injEq] at h
    subst h
    have hr : 1 ≤ t.procs ∧ t.procs ≤ maxProcs := by
      simpa [Event.inRange, Tick.inRange] using he
    have hn := next2_bounds s.sampler.default_limit t.procs hr.1 hr.2
      (getCPUUsage t.cpu) (getMemoryAvailable t.mem)
    have hp := hr.2
    unfold maxProcs at hp
    simp only [Sys.Bounded, maxCapacity]
    push_cast
    omega

/-- A run of `es`, started within the bound for `k` operations, ends within the
bound for `k + es.length` operations, as long as that is at most `2^62`. -/
theorem Sys.bounded_run (fuel : Nat) : ∀ (es : List Event) (k : Nat) (s s' : Sys),
    k + es.length ≤ 4611686018427387904 → (∀ e ∈ es, e.inRange = true) →
    Sys.Bounded k s → s.run (fuel + 1) es = some s' → Sys.Bounded (k + es.length) s'
  | [], k, s, s', _, _, hb, h => by
    simp only [Sys.run, Option.some.injEq] at h
    subst h
    simpa using hb
  | e :: es, k, s, s', hk, hr, hb, h => by
    simp only [Sys.run] at h
    simp only [List.length_cons] at hk
    cases hstep : s.exec (fuel + 1) e with
    | none => simp [hstep] at h
    | some s₁ =>
      simp only [hstep] at h
      have hb₁ := Sys.bounded_exec fuel k (by omega) s s₁ e
        (hr e (List.mem_cons_self e es)) hb hstep
      have := Sys.bounded_run fuel es (k + 1) s₁ s' (by omega)
        (fun e' he' => hr e' (List.mem_cons_of_mem e he')) hb₁ h
      have hlen : k + (e :: es).length = k + 1 + es.length := by
        simp only [List.length_cons]; omega
      rw [hlen]
      exact this

/-- C13 as stated fails: no execution of at most `2^62` operations that starts
from `NewLimit` and is made of `Allow` calls, matched `End` calls and sampler
iterations reaches a state in which the counter is negative. -/
theorem C13_negative_counter_counterexample :
    ¬ ∃ (P : Int) (es : List Event) (s : Sys),
        1 ≤ P ∧ P ≤ maxProcs ∧ es.length ≤ 4611686018427387904 ∧
        (∀ e ∈ es, e.inRange = true) ∧
        (Sys.init P).run 1 es = some s ∧ s.lim.token < 0 := by
  rintro ⟨P, es, s, hP, hP', hlen, hr, hrun, hneg⟩
  have hb := Sys.bounded_run 0 es 0 (Sys.init P) s (by omega) hr
    (Sys.bounded_init P hP hP') hrun
  have := hb.1
  omega

/-- C13, amended: in every state that an execution of at most `2^62`
operations reaches from `NewLimit` by `Allow` calls, matched `End` calls and
sampler iterations (lower capacities published while requests are outstanding
included), the counter is not negative. -/
theorem C13_counter_never_negative (P : Int) (hP : 1 ≤ P) (hP' : P ≤ maxProcs)
    (fuel : Nat) (es : List Event) (s : Sys) (hlen : es.length ≤ 4611686018427387904)
    (hr : ∀ e ∈ es, e.inRange = true) (hrun : (Sys.init P).run (fuel + 1) es = some s) :
    0 ≤ s.lim.token := by
  have hb := Sys.bounded_run fuel es 0 (Sys.init P) s (by omega) hr
    (Sys.bounded_init P hP hP') hrun
  exact hb.1

/-- On one processor, one admitted request followed by an iteration that sees
CPU 90%: capacity 10 is published while the request is outstanding. -/
theorem Sys.run_allow_drop :
    (Sys.init 1).run 1
        [Event.allow, Event.tick { procs := 1, cpu := .ok [90], mem := .ok 8000000000 }] =
      some { lim := { token := 10 }, sampler := { default_limit := 300, next := 10 },
             inflight := 1 } := by
  have h300 : mulPerCpu 1 300 = 300 := by decide
  have hn : next2 300 1 90 ((roundF64 8000000000 : Nat) : ℚ) = 10 := by
    have := next2_eq 1 (by decide) (by decide) 90 8000000000
    rw [h300] at this
    rw [this]
    norm_num
  have h₁ : Sys.exec 1 (Sys.init 1) Event.allow =
      some { lim := { token := 299 }, sampler := { default_limit := 300, next := 300 },
             inflight := 1 } := by
    decide
  have h₂ : Sys.exec 1 { lim := { token := 299 }, sampler := { default_limit := 300, next := 300 },
                         inflight := 1 }
        (Event.tick { procs := 1, cpu := .ok [90], mem := .ok 8000000000 }) =
      some { lim := { token := 10 }, sampler := { default_limit := 300, next := 10 },
             inflight := 1 } := by
    rw [Sys.exec_tick]
    simp only [getCPUUsage, getMemoryAvailable, hn]
  simp only [Sys.run, h₁, h₂]

/-- Witness for the amended C13 on one processor: capacity 10 is published
while a request is outstanding, and the counter is 10, not negative. -/
theorem C13_counter_never_negative_witness :
    (0 : Int) ≤ (Sys.mk { token := 10 } { default_limit := 300, next := 10 } 1).lim.token :=
  C13_counter_never_negative 1 (by decide) (by decide) 0
    [Event.allow, Event.tick { procs := 1, cpu := .ok [90], mem := .ok 8000000000 }]
    { lim := { token := 10 }, sampler := { default_limit := 300, next := 10 }, inflight := 1 }
    (by simp)
    (by
      intro e he
      simp only [List.mem_cons, List.mem_singleton, List.not_mem_nil, or_false] at he
      rcases he with rfl | rfl
      · rfl
      · decide)
    Sys.run_allow_drop

/-! ### Monotonicity of the policy -/

/-- C14: for a fixed parallelism `P ≥ 1` the published capacity is monotone in
both signals: a higher CPU reading never gives a higher capacity, and a lower
reading of available memory never gives a higher capacity. -/
theorem C14_capacity_monotone (P : Int) (hP : 1 ≤ P) (hP' : P ≤ maxProcs) :
    (∀ (u₁ u₂ : ℚ) (rest₁ rest₂ : List ℚ) (a : Nat), u₁ ≤ u₂ →
      published P (.ok (u₂ :: rest₂)) (.ok a) ≤ published P (.ok (u₁ :: rest₁)) (.ok a)) ∧
    (∀ (u : ℚ) (rest : List ℚ) (a₁ a₂ : Nat), a₁ ≤ a₂ →
      published P (.ok (u :: rest)) (.ok a₁) ≤ published P (.ok (u :: rest)) (.ok a₂)) := by
  constructor
  · intro u₁ u₂ rest₁ rest₂ a hu
    rw [published_ok P hP hP', published_ok P hP hP']
    have h85 : 85 < u₁ → 85 < u₂ := fun h => lt_of_lt_of_le h hu
    have h75 : 75 < u₁ → 75 < u₂ := fun h => lt_of_lt_of_le h hu
    have h65 : 65 < u₁ → 65 < u₂ := fun h => lt_of_lt_of_le h hu
    by_cases c₁ : 85 < u₁ <;> by_cases c₂ : 75 < u₁ <;> by_cases c₃ : 65 < u₁ <;>
      by_cases d₁ : 85 < u₂ <;> by_cases d₂ : 75 < u₂ <;> by_cases d₃ : 65 < u₂ <;>
      simp only [gt_iff_lt, c₁, c₂, c₃, d₁, d₂, d₃, if_true, if_false] <;>
      first
        | (split_ifs <;> omega)
        | exact absurd (h85 c₁) d₁
        | exact absurd (h75 c₂) d₂
        | exact absurd (h65 c₃) d₃
  · intro u rest a₁ a₂ ha
    rw [published_ok P hP hP', published_ok P hP hP']
    split_ifs <;> omega

/-- Witness for C14 on one processor: CPU 70% against CPU 90% at 10 GB. -/
theorem C14_capacity_monotone_witness :
    published 1 (.ok (90 :: [])) (.ok 10000000000) ≤
      published 1 (.ok (70 :: [])) (.ok 10000000000) :=
  (C14_capacity_monotone 1 (by decide) (by decide)).1 70 90 [] [] 10000000000 (by norm_num)

/-! ### A parallelism that changes while the sampler runs -/

/-- The value of `next2` at the `Store` for `default_limit = 300 * P`, a
parallelism `Q` read by the iteration, CPU value `u` and `a` available bytes. -/
theorem next2_eq_at (P Q : Int) (hP : 1 ≤ P) (hP' : P ≤ maxProcs) (hQ : 1 ≤ Q)
    (hQ' : Q ≤ maxProcs) (u : ℚ) (a : Nat) :
    next2 (mulPerCpu P 300) Q u (roundF64 a : ℚ) = memTerm Q (cpuTerm P Q u) a := by
  have e300 := mulPerCpu_eq P 300 hP hP' (by omega) (by omega)
  have e10 := mulPerCpu_eq Q 10 hQ hQ' (by omega) (by omega)
  have e32 := mulPerCpu_eq Q 32 hQ hQ' (by omega) (by omega)
  have e64 := mulPerCpu_eq Q 64 hQ hQ' (by omega) (by omega)
  simp only [next2, e300, e10, e32, e64, band_0_05, band_0_10, band_0_15, memTerm, cpuTerm]

/-- The capacity published at parallelism `Q` by a sampler started at `P` is
`next2` of the two probe values. -/
theorem publishedAt_eq (P Q : Int) (cpu : Except String (List ℚ)) (mem : Except String Nat) :
    publishedAt P Q cpu mem =
      next2 (mulPerCpu P 300) Q (getCPUUsage cpu) (getMemoryAvailable mem) := by
  simp [publishedAt, Limit.adjustBody, Limit.Store, Sampler.init]

/-- C15 as stated fails: a sampler started with parallelism 1 that reads
parallelism 2 in an iteration without pressure (CPU 1%, 8 GB available)
publishes 300, the default scaled by 1, where the claim's
`min(300*2, cpu_candidate, memory_candidate)` is 600. -/
theorem C15_default_not_rescaled_counterexample :
    publishedAt 1 2 (.ok [1]) (.ok 8000000000) = 300 ∧
    specCapacity 2 1 8000000000 = 600 ∧
    publishedAt 1 2 (.ok [1]) (.ok 8000000000) ≠ specCapacity 2 1 8000000000 := by
  have h₁ : publishedAt 1 2 (.ok [1]) (.ok 8000000000) = 300 := by
    rw [publishedAt_eq]
    have := next2_eq_at 1 2 (by decide) (by decide) (by decide) (by decide) 1 8000000000
    simp only [getCPUUsage, getMemoryAvailable]
    rw [this]
    norm_num [memTerm, cpuTerm]
  have h₂ : specCapacity 2 1 8000000000 = 600 := by
    rw [specCapacity, specMemCandidate_eq, specCpuCandidate]
    norm_num
  refine ⟨h₁, h₂, ?_⟩
  rw [h₁, h₂]
  decide

/-- The policy of the specification with the default scaled by `P` and the
band multipliers by `Q`, its memory bands given in bytes. -/
theorem specCapacityAt_eq (P Q : Int) (u : ℚ) (a : Nat) :
    specCapacityAt P Q u a =
      min (300 * P) (min (cpuTerm P Q u)
        (if a ≤ 53687091 then 10 * Q else if a ≤ 107374182 then 32 * Q
         else if a ≤ 161061273 then 64 * Q else 300 * P)) := by
  have h5 : ((a : ℚ) < 5 / 100 * 2 ^ 30) ↔ a ≤ 53687091 := by
    have := lt_percent_gib a 5
    simp only [Nat.cast_ofNat] at this
    rw [this]; omega
  have h10 : ((a : ℚ) < 10 / 100 * 2 ^ 30) ↔ a ≤ 107374182 := by
    have := lt_percent_gib a 10
    simp only [Nat.cast_ofNat] at this
    rw [this]; omega
  have h15 : ((a : ℚ) < 15 / 100 * 2 ^ 30) ↔ a ≤ 161061273 := by
    have := lt_percent_gib a 15
    simp only [Nat.cast_ofNat] at this
    rw [this]; omega
  simp only [specCapacityAt, specMemCandidateAt, specCpuCandidateAt, cpuTerm, h5, h10, h15]

/-- The CPU step yields a band's multiplier scaled by `Q` or the default
`300 * P`, so it is at most the larger of `64 * Q` and `300 * P`. -/
theorem cpuTerm_le (P Q : Int) (hQ : 1 ≤ Q) (u : ℚ) : cpuTerm P Q u ≤ max (64 * Q) (300 * P) := by
  simp only [cpuTerm]
  split_ifs <;> omega

/-- C15, amended: the sampler scales the default 300 by the parallelism `P` it
read when it started and the multipliers 10, 32 and 64 of the CPU and memory
bands by the parallelism `Q` read at the tick.  Whenever the CPU candidate does
not exceed the default `300 * P`, which is so for every CPU reading when
`64 * Q ≤ 300 * P`, the published capacity is
`min(300*P, cpu_candidate, memory_candidate)`; for `Q = P` this is the capacity
of the specification. -/
theorem C15_capacity_at_tick (P Q : Int) (hP : 1 ≤ P) (hP' : P ≤ maxProcs) (hQ : 1 ≤ Q)
    (hQ' : Q ≤ maxProcs) (u : ℚ) (rest : List ℚ) (a : Nat) :
    (specCpuCandidateAt P Q u ≤ 300 * P →
      publishedAt P Q (.ok (u :: rest)) (.ok a) = specCapacityAt P Q u a) ∧
    (64 * Q ≤ 300 * P →
      publishedAt P Q (.ok (u :: rest)) (.ok a) = specCapacityAt P Q u a) ∧
    (Q = P → publishedAt P Q (.ok (u :: rest)) (.ok a) = specCapacity P u a) := by
  have h : publishedAt P Q (.ok (u :: rest)) (.ok a) = memTerm Q (cpuTerm P Q u) a := by
    rw [publishedAt_eq]
    exact next2_eq_at P Q hP hP' hQ hQ' u a
  have hcpu : specCpuCandidateAt P Q u = cpuTerm P Q u := rfl
  have key : cpuTerm P Q u ≤ 300 * P →
      publishedAt P Q (.ok (u :: rest)) (.ok a) = specCapacityAt P Q u a := by
    intro hle
    rw [h, specCapacityAt_eq, memTerm]
    split_ifs <;> omega
  refine ⟨fun hle => key (hcpu ▸ hle), ?_, ?_⟩
  · intro hle
    apply key
    have := cpuTerm_le P Q hQ u
    omega
  · intro hQP
    subst hQP
    rw [h, specCapacity, specMemCandidate_eq, specCpuCandidate, memTerm, cpuTerm]
    split_ifs <;> omega

/-- Witness for the amended C15: started on two processors, reading one
processor at CPU 70% with 8 GB available. -/
theorem C15_capacity_at_tick_witness :
    (64 * 1 : Int) ≤ 300 * 2 ∧
    publishedAt 2 1 (.ok (70 :: [])) (.ok 8000000000) = specCapacityAt 2 1 70 8000000000 :=
  ⟨by decide,
    (C15_capacity_at_tick 2 1 (by decide) (by decide) (by decide) (by decide) 70 []
      8000000000).2.1 (by decide)⟩

/-! ### The log of capacity changes -/

/-- One more iteration: `adjust` over `ticks ++ [t]` is `adjustBody` applied to
the state `adjust` reaches over `ticks`. -/
theorem Limit.adjust_snoc (l : Limit) (P : Int) (ticks : List Tick) (t : Tick) :
    l.adjust P (ticks ++ [t]) =
      (((l.adjust P ticks).1.adjustBody (l.adjust P ticks).2.1 t).1,
       ((l.adjust P ticks).1.adjustBody (l.adjust P ticks).2.1 t).2.1,
       (l.adjust P ticks).2.2 ++
         ((l.adjust P ticks).1.adjustBody (l.adjust P ticks).2.1 t).2.2.toList) := by
  simp [Limit.adjust, List.foldl_append]

/-- The variable `default_limit` keeps its initial value, and `next` holds the
capacity of the last iteration, or the initial default before the first. -/
theorem Limit.adjust_sampler (l : Limit) (P : Int) (ticks : List Tick) :
    (l.adjust P ticks).2.1.default_limit = mulPerCpu P 300 ∧
    (l.adjust P ticks).2.1.next =
      (if ticks.isEmpty then mulPerCpu P 300 else (l.adjust P ticks).1.token) := by
  induction ticks using List.reverseRecOn with
  | nil => simp [Limit.adjust, Sampler.init]
  | append_singleton ts t ih =>
    rw [Limit.adjust_snoc]
    have hne : (ts ++ [t]).isEmpty = false := by simp
    simp only [hne, Limit.adjustBody, Limit.Store, ih.1]
    simp

/-- C16: in every sequence of sampler iterations, an iteration hands a record
to `slog.Info` exactly when the capacity it publishes differs from the
capacity of the previous iteration (`300*P` before the first), the record
holds that previous capacity and the new one, and the new capacity is stored in
the counter in both cases. -/
theorem C16_log_on_change (P : Int) (hP : 1 ≤ P) (hP' : P ≤ maxProcs) (l : Limit)
    (ticks : List Tick) (t : Tick) :
    (l.adjust P (ticks ++ [t])).1.token =
      next2 (300 * P) t.procs (getCPUUsage t.cpu) (getMemoryAvailable t.mem) ∧
    (l.adjust P (ticks ++ [t])).2.2 =
      (l.adjust P ticks).2.2 ++
        (if (if ticks.isEmpty then 300 * P else (l.adjust P ticks).1.token) ≠
              (l.adjust P (ticks ++ [t])).1.token
         then [((if ticks.isEmpty then 300 * P else (l.adjust P ticks).1.token),
                (l.adjust P (ticks ++ [t])).1.token)]
         else []) := by
  have e300 := mulPerCpu_eq P 300 hP hP' (by omega) (by omega)
  have hs := Limit.adjust_sampler l P ticks
  rw [e300] at hs
  have htok : (l.adjust P (ticks ++ [t])).1.token =
      next2 (300 * P) t.procs (getCPUUsage t.cpu) (getMemoryAvailable t.mem) := by
    rw [Limit.adjust_snoc]
    simp only [Limit.adjustBody, Limit.Store, hs.1]
  refine ⟨htok, ?_⟩
  rw [htok, Limit.adjust_snoc]
  simp only [Limit.adjustBody, hs.1, hs.2]
  split_ifs <;> simp_all

/-- Witness for C16 on one processor: the first iteration sees CPU 90% and
publishes 10, so a record with the previous and the new capacity is appended. -/
theorem C16_log_on_change_witness :
    (1 : Int) ≤ 1 ∧ (1 : Int) ≤ maxProcs ∧
    ((Limit.mk 0).adjust 1
        ([] ++ [{ procs := 1, cpu := .ok [90], mem := .ok 8000000000 }])).1.token =
      next2 (300 * 1) 1 (getCPUUsage (.ok [90])) (getMemoryAvailable (.ok 8000000000)) :=
  ⟨by decide, by decide,
    (C16_log_on_change 1 (by decide) (by decide) (Limit.mk 0) []
      { procs := 1, cpu := .ok [90], mem := .ok 8000000000 }).1⟩

/-! ### Conservation of the budget between two publications -/

/-- An `Allow` or a matched `End` keeps the sum of the counter and the requests
in flight, and keeps the counter non-negative. -/
theorem Sys.conserved_exec (fuel : Nat) (c : Int) (hc : c ≤ maxInt64) (s s' : Sys)
    (e : Event) (he : e.isTick = false)
    (hsum : s.lim.token + (s.inflight : Int) = c) (h0 : 0 ≤ s.lim.token)
    (h : s.exec (fuel + 1) e = some s') :
    s'.lim.token + (s'.inflight : Int) = c ∧ 0 ≤ s'.lim.token := by
  cases e with
  | allow =>
    by_cases hpos : 0 < s.lim.token
    · simp [Sys.exec, Limit.Allow_succ, hpos] at h
      subst h
      simp only
      push_cast
      omega
    · simp [Sys.exec, Limit.Allow_succ, hpos] at h
      subst h
      exact ⟨hsum, h0⟩
  | finish =>
    by_cases hin : s.inflight = 0
    · simp [Sys.exec, hin] at h
    · simp only [Sys.exec, hin, if_false, Option.some.injEq] at h
      subst h
      have hw : wrapInt64 (s.lim.token + 1) = s.lim.token + 1 := by
        apply wrapInt64_of_mem
        · unfold minInt64; omega
        · omega
      simp only [Limit.End, Limit.Add, hw]
      omega
  | tick t => simp [Event.isTick] at he

/-- A run of `Allow` calls and matched `End` calls keeps the sum of the counter
and the requests in flight, and keeps the counter non-negative. -/
theorem Sys.conserved_run (fuel : Nat) (c : Int) (hc : c ≤ maxInt64) :
    ∀ (es : List Event) (s s' : Sys), (∀ e ∈ es, e.isTick = false) →
      s.lim.token + (s.inflight : Int) = c → 0 ≤ s.lim.token →
      s.run (fuel + 1) es = some s' →
      s'.lim.token + (s'.inflight : Int) = c ∧ 0 ≤ s'.lim.token
  | [], s, s', _, hsum, h0, h => by
    simp only [Sys.run, Option.some.injEq] at h
    subst h
    exact ⟨hsum, h0⟩
  | e :: es, s, s', hes, hsum, h0, h => by
    simp only [Sys.run] at h
    cases hstep : s.exec (fuel + 1) e with
    | none => simp [hstep] at h
    | some s₁ =>
      simp only [hstep] at h
      have h₁ := Sys.conserved_exec fuel c hc s s₁ e (hes e (List.mem_cons_self e es))
        hsum h0 hstep
      exact Sys.conserved_run fuel c hc es s₁ s'
        (fun e' he' => hes e' (List.mem_cons_of_mem e he')) h₁.1 h₁.2 h

/-- C17: between two publications the budget is conserved.  From a counter
holding `c ≥ 0` and no request in flight, after every sequence of `Allow` calls
and `End` calls in which each `End` matches an earlier successful `Allow`, the
counter plus the number of requests in flight equals `c`, the counter is within
`[0, c]`, at most `c` requests are in flight, and every operation a handler may
issue next executes. -/
theorem C17_budget_conserved (c : Int) (hc : 0 ≤ c) (hc' : c ≤ maxInt64) (smp : Sampler)
    (fuel : Nat) (es : List Event) (hes : ∀ e ∈ es, e.isTick = false) (s : Sys)
    (hrun : Sys.run (fuel + 1) { lim := { token := c }, sampler := smp, inflight := 0 } es =
      some s) :
    s.lim.token + (s.inflight : Int) = c ∧
    0 ≤ s.lim.token ∧ s.lim.token ≤ c ∧ (s.inflight : Int) ≤ c ∧
    (∀ e : Event, e.enabled s = true → ∃ s', s.exec (fuel + 1) e = some s') := by
  have h := Sys.conserved_run fuel c hc' es _ s hes (by simp) hc hrun
  refine ⟨h.1, h.2, ?_, ?_, fun e he => Sys.exec_of_enabled fuel s e he⟩
  · have := h.1
    omega
  · have := h.1
    have := h.2
    omega

/-- Witness for C17: from a counter holding 2, an `Allow`, another `Allow`, a
refused `Allow` and an `End` leave 1 in the counter and 1 request in flight. -/
theorem C17_budget_conserved_witness :
    (0 : Int) ≤ 2 ∧ (2 : Int) ≤ maxInt64 ∧
    Sys.run (0 + 1) { lim := { token := 2 }, sampler := Sampler.init 1, inflight := 0 }
        [Event.allow, Event.allow, Event.allow, Event.finish] =
      some { lim := { token := 1 }, sampler := Sampler.init 1, inflight := 1 } ∧
    (Sys.mk { token := 1 } (Sampler.init 1) 1).lim.token +
        ((Sys.mk { token := 1 } (Sampler.init 1) 1).inflight : Int) = 2 :=
  ⟨by decide, by decide, by decide,
    (C17_budget_conserved 2 (by decide) (by decide) (Sampler.init 1) 0
      [Event.allow, Event.allow, Event.allow, Event.finish] (by decide)
      { lim := { token := 1 }, sampler := Sampler.init 1, inflight := 1 } (by decide)).1⟩

end GoLimit
